import Mathlib

/-!
Verification of the dual-representation transaction codec
(src/sui-rust-sdk/src/types/transaction/serialization.rs) and of the
ability-field-requirements bytecode-verifier pass
(src/sui/external-crates/move/crates/move-bytecode-verifier/src/ability_field_requirements.rs).

The binary wire format is the canonical BCS form produced by the serde
implementations in serialization.rs; the BCS primitives themselves (the bcs
crate is not part of the sources) are modelled from the spec, section 4.1:
little-endian fixed-width integers, minimal base-128 little-endian varints
for sequence lengths and enum discriminants, one-byte booleans, and
count-prefixed sequences.  The textual format is modelled as a tree of JSON
values; serde_json (also external) is modelled from the spec, section 4.2:
internally tagged variants, flattened field merging, base64 byte payloads
(carried here as the byte sequence they denote) and decimal strings for
64-bit integers.
-/

namespace SuiCodec

/-- Bytes of the binary wire format. -/
abbrev Byte := Fin 256

/-- Unsigned 16-bit values (Argument indices). -/
abbrev U16 := Fin 65536

/-- Unsigned 64-bit values (versions). -/
abbrev U64 := Fin (2 ^ 64)

/-! ## Minimal ULEB128 varints

Modelled from the spec: the bcs crate is not under src/; section 4.1 fixes
the length and discriminant encoding as a minimal base-128 little-endian
varint with non-minimal forms rejected. -/

/-- Encode a natural number as a minimal base-128 little-endian varint. -/
def ulebEncode (n : Nat) : List Byte :=
  if h : n < 128 then [⟨n, by omega⟩]
  else ⟨n % 128 + 128, by omega⟩ :: ulebEncode (n / 128)
termination_by n
decreasing_by exact Nat.div_lt_self (by omega) (by omega)

/-- Decode a minimal base-128 little-endian varint from the front of a byte
list, rejecting non-minimal forms (a continuation byte whose remainder
encodes zero). -/
def ulebDecode : List Byte → Option (Nat × List Byte)
  | [] => none
  | b :: rest =>
    if b.val < 128 then some (b.val, rest)
    else
      match ulebDecode rest with
      | some (m, r) => if m = 0 then none else some (b.val - 128 + 128 * m, r)
      | none => none

theorem ulebEncode_cons {n : Nat} (h : ¬ n < 128) (x : Byte)
    (hx : x.val = n % 128 + 128) : ulebEncode n = x :: ulebEncode (n / 128) := by
  rw [ulebEncode, dif_neg h]
  congr 1
  exact (Fin.ext (by simp only [Fin.val_mk, hx])).symm

theorem ulebDecode_ulebEncode (n : Nat) (rest : List Byte) :
    ulebDecode (ulebEncode n ++ rest) = some (n, rest) := by
  induction n using Nat.strong_induction_on generalizing rest with
  | _ n ih =>
    by_cases h : n < 128
    · rw [ulebEncode, dif_pos h]
      simp [ulebDecode, h]
    · rw [ulebEncode, dif_neg h]
      simp only [List.cons_append, ulebDecode, List.append_eq, Fin.val_mk]
      rw [if_neg (by omega)]
      rw [ih (n / 128) (Nat.div_lt_self (by omega) (by omega)) rest]
      show (if n / 128 = 0 then none
        else some (n % 128 + 128 - 128 + 128 * (n / 128), rest)) = some (n, rest)
      rw [if_neg (by omega)]
      simp only [Option.some.injEq, Prod.mk.injEq, and_true]
      omega

theorem ulebDecode_canonical (b : List Byte) (n : Nat) (rest : List Byte)
    (h : ulebDecode b = some (n, rest)) : b = ulebEncode n ++ rest := by
  induction b generalizing n rest with
  | nil => simp [ulebDecode] at h
  | cons x t ih =>
    simp only [ulebDecode] at h
    by_cases hx : x.val < 128
    · rw [if_pos hx] at h
      obtain ⟨rfl, rfl⟩ := by simpa using h
      rw [ulebEncode, dif_pos hx]
      simp
    · rw [if_neg hx] at h
      rcases hm : ulebDecode t with _ | ⟨m, r⟩
      · rw [hm] at h; simp at h
      · rw [hm] at h
        simp only [] at h
        by_cases hm0 : m = 0
        · rw [if_pos hm0] at h; simp at h
        · rw [if_neg hm0] at h
          obtain ⟨rfl, rfl⟩ := by simpa using h
          have ht := ih m r hm
          have hxlt := x.isLt
          have h2 : (x.val - 128 + 128 * m) / 128 = m := by omega
          rw [ulebEncode_cons (n := x.val - 128 + 128 * m) (by omega) x (by omega),
            h2, ht, List.cons_append]

/-! ## Fixed-width little-endian integers, booleans, raw byte runs

Modelled from the spec, section 4.1: fixed-width integers are little-endian
with a fixed byte count per declared type; booleans are a single byte that
must be 0 or 1. -/

/-- Encode the low `k` bytes of `n` in little-endian order. -/
def leEncode : Nat → Nat → List Byte
  | 0, _ => []
  | k + 1, n => ⟨n % 256, by omega⟩ :: leEncode k (n / 256)

/-- Decode a `k`-byte little-endian integer from the front of a byte list. -/
def leDecode : Nat → List Byte → Option (Nat × List Byte)
  | 0, b => some (0, b)
  | _ + 1, [] => none
  | k + 1, x :: rest => (leDecode k rest).map (fun p => (x.val + 256 * p.1, p.2))

theorem leDecode_leEncode (k n : Nat) (hn : n < 256 ^ k) (rest : List Byte) :
    leDecode k (leEncode k n ++ rest) = some (n, rest) := by
  induction k generalizing n rest with
  | zero =>
    have hn0 : n = 0 := by simpa using hn
    subst hn0
    rfl
  | succ k ih =>
    have hdiv : n / 256 < 256 ^ k := by
      rw [Nat.div_lt_iff_lt_mul (by omega)]
      calc n < 256 ^ (k + 1) := hn
        _ = 256 ^ k * 256 := by ring
    simp only [leEncode, List.cons_append, leDecode, List.append_eq,
      ih (n / 256) hdiv rest, Option.map_some, Fin.val_mk]
    simp only [Option.map_some', Option.some.injEq, Prod.mk.injEq, and_true]
    omega

theorem leDecode_canonical (k : Nat) (b : List Byte) (n : Nat) (rest : List Byte)
    (h : leDecode k b = some (n, rest)) : n < 256 ^ k ∧ b = leEncode k n ++ rest := by
  induction k generalizing b n rest with
  | zero =>
    simp only [leDecode, Option.some.injEq, Prod.mk.injEq] at h
    obtain ⟨rfl, rfl⟩ := h
    simp [leEncode]
  | succ k ih =>
    match b with
    | [] => simp [leDecode] at h
    | x :: t =>
      simp only [leDecode, Option.map_eq_some'] at h
      obtain ⟨⟨m, r⟩, hd, heq⟩ := h
      obtain ⟨hm, ht⟩ := ih t m r hd
      obtain ⟨rfl, rfl⟩ := by simpa using heq
      have hxlt := x.isLt
      constructor
      · calc x.val + 256 * m < 256 + 256 * m := by omega
          _ ≤ 256 * 256 ^ k := by omega
          _ = 256 ^ (k + 1) := by ring
      · have h1 : (x.val + 256 * m) % 256 = x.val := by omega
        have h2 : (x.val + 256 * m) / 256 = m := by omega
        simp only [leEncode, h2, ht, List.cons_append, List.cons.injEq, and_true]
        exact Fin.ext (by simp [Fin.val_mk, h1])

/-- Encode a boolean as a single byte, 0 or 1. -/
def boolEncode (b : Bool) : List Byte :=
  [if b then 1 else 0]

/-- Decode a one-byte boolean; any byte other than 0 or 1 is rejected. -/
def boolDecode : List Byte → Option (Bool × List Byte)
  | [] => none
  | x :: rest =>
    if x.val = 0 then some (false, rest)
    else if x.val = 1 then some (true, rest) else none

theorem boolDecode_boolEncode (b : Bool) (rest : List Byte) :
    boolDecode (boolEncode b ++ rest) = some (b, rest) := by
  cases b <;> simp [boolEncode, boolDecode]

theorem boolDecode_canonical (bs : List Byte) (b : Bool) (rest : List Byte)
    (h : boolDecode bs = some (b, rest)) : bs = boolEncode b ++ rest := by
  match bs with
  | [] => simp [boolDecode] at h
  | x :: t =>
    simp only [boolDecode] at h
    by_cases h0 : x.val = 0
    · rw [if_pos h0] at h
      obtain ⟨rfl, rfl⟩ := by simpa using h
      simp only [boolEncode, Bool.false_eq_true, if_false, List.cons_append, List.nil_append,
        List.cons.injEq, and_true]
      exact Fin.ext (by simp [h0])
    · rw [if_neg h0] at h
      by_cases h1 : x.val = 1
      · rw [if_pos h1] at h
        obtain ⟨rfl, rfl⟩ := by simpa using h
        simp only [boolEncode, if_true, List.cons_append, List.nil_append,
          List.cons.injEq, and_true]
        exact Fin.ext (by simp [h1])
      · rw [if_neg h1] at h
        simp at h

/-- Read exactly `k` raw bytes from the front of a byte list. -/
def readRaw : Nat → List Byte → Option (List Byte × List Byte)
  | 0, b => some ([], b)
  | _ + 1, [] => none
  | k + 1, x :: rest => (readRaw k rest).map (fun p => (x :: p.1, p.2))

theorem readRaw_append (v rest : List Byte) :
    readRaw v.length (v ++ rest) = some (v, rest) := by
  induction v generalizing rest with
  | nil => rfl
  | cons x t ih => simp [readRaw, ih]

theorem readRaw_canonical (k : Nat) (b v rest : List Byte)
    (h : readRaw k b = some (v, rest)) : v.length = k ∧ b = v ++ rest := by
  induction k generalizing b v rest with
  | zero =>
    simp only [readRaw, Option.some.injEq, Prod.mk.injEq] at h
    obtain ⟨rfl, rfl⟩ := h
    simp
  | succ k ih =>
    match b with
    | [] => simp [readRaw] at h
    | x :: t =>
      simp only [readRaw, Option.map_eq_some'] at h
      obtain ⟨⟨v1, r1⟩, hd, heq⟩ := h
      obtain ⟨hlen, ht⟩ := ih t v1 r1 hd
      obtain ⟨rfl, rfl⟩ := by simpa using heq
      simp [hlen, ht]

/-- Encode a byte sequence: its minimal varint length then the raw bytes.
This is the binary form of a Vec of u8 and of every opaque leaf value. -/
def bytesEncode (v : List Byte) : List Byte :=
  ulebEncode v.length ++ v

/-- Decode a length-prefixed byte sequence. -/
def bytesDecode (b : List Byte) : Option (List Byte × List Byte) :=
  match ulebDecode b with
  | none => none
  | some (len, r) => readRaw len r

theorem bytesDecode_bytesEncode (v rest : List Byte) :
    bytesDecode (bytesEncode v ++ rest) = some (v, rest) := by
  simp only [bytesEncode, bytesDecode, List.append_assoc, ulebDecode_ulebEncode,
    readRaw_append]

theorem bytesDecode_canonical (b v rest : List Byte)
    (h : bytesDecode b = some (v, rest)) : b = bytesEncode v ++ rest := by
  simp only [bytesDecode] at h
  rcases hu : ulebDecode b with _ | ⟨len, r⟩ <;> rw [hu] at h
  · simp at h
  · obtain ⟨hlen, hr⟩ := readRaw_canonical len r v rest h
    rw [ulebDecode_canonical b len r hu, hr, bytesEncode, hlen, List.append_assoc]

/-! ## Count-prefixed sequences of values -/

/-- Concatenate the encodings of the elements of a list, in order. -/
def elemsEncode (enc : α → List Byte) : List α → List Byte
  | [] => []
  | x :: xs => enc x ++ elemsEncode enc xs

/-- Decode exactly `k` consecutive values, threading the unconsumed tail. -/
def elemsDecode (dec : List Byte → Option (α × List Byte)) :
    Nat → List Byte → Option (List α × List Byte)
  | 0, b => some ([], b)
  | k + 1, b =>
    match dec b with
    | none => none
    | some (x, r) =>
      match elemsDecode dec k r with
      | none => none
      | some (xs, r2) => some (x :: xs, r2)

theorem elemsDecode_elemsEncode {dec : List Byte → Option (α × List Byte)}
    {enc : α → List Byte}
    (hrt : ∀ a rest, dec (enc a ++ rest) = some (a, rest))
    (xs : List α) (rest : List Byte) :
    elemsDecode dec xs.length (elemsEncode enc xs ++ rest) = some (xs, rest) := by
  induction xs generalizing rest with
  | nil => rfl
  | cons x t ih =>
    simp only [elemsEncode, List.append_assoc, List.length_cons, elemsDecode, hrt, ih]

theorem elemsDecode_canonical {dec : List Byte → Option (α × List Byte)}
    {enc : α → List Byte}
    (hcn : ∀ b a rest, dec b = some (a, rest) → b = enc a ++ rest)
    (k : Nat) (b : List Byte) (xs : List α) (rest : List Byte)
    (h : elemsDecode dec k b = some (xs, rest)) :
    xs.length = k ∧ b = elemsEncode enc xs ++ rest := by
  induction k generalizing b xs rest with
  | zero =>
    simp only [elemsDecode, Option.some.injEq, Prod.mk.injEq] at h
    obtain ⟨rfl, rfl⟩ := h
    simp [elemsEncode]
  | succ k ih =>
    unfold elemsDecode at h
    rcases hd : dec b with _ | ⟨x, r⟩ <;> rw [hd] at h
    · simp at h
    · simp only [] at h
      rcases he : elemsDecode dec k r with _ | ⟨xs1, r2⟩ <;> rw [he] at h
      · simp at h
      · obtain ⟨rfl, rfl⟩ := by simpa using h
        obtain ⟨hlen, hr⟩ := ih r xs1 r2 he
        refine ⟨by simp [hlen], ?_⟩
        rw [hcn b x r hd, hr, elemsEncode, List.append_assoc]

/-- Encode a sequence: the minimal varint element count, then each element. -/
def seqEncode (enc : α → List Byte) (xs : List α) : List Byte :=
  ulebEncode xs.length ++ elemsEncode enc xs

/-- Decode a count-prefixed sequence: the varint count, then exactly that many
elements. -/
def seqDecode (dec : List Byte → Option (α × List Byte)) (b : List Byte) :
    Option (List α × List Byte) :=
  match ulebDecode b with
  | none => none
  | some (len, r) => elemsDecode dec len r

theorem seqDecode_seqEncode {dec : List Byte → Option (α × List Byte)}
    {enc : α → List Byte}
    (hrt : ∀ a rest, dec (enc a ++ rest) = some (a, rest))
    (xs : List α) (rest : List Byte) :
    seqDecode dec (seqEncode enc xs ++ rest) = some (xs, rest) := by
  simp only [seqEncode, seqDecode, List.append_assoc, ulebDecode_ulebEncode,
    elemsDecode_elemsEncode hrt]

theorem seqDecode_canonical {dec : List Byte → Option (α × List Byte)}
    {enc : α → List Byte}
    (hcn : ∀ b a rest, dec b = some (a, rest) → b = enc a ++ rest)
    (b : List Byte) (xs : List α) (rest : List Byte)
    (h : seqDecode dec b = some (xs, rest)) : b = seqEncode enc xs ++ rest := by
  simp only [seqDecode] at h
  rcases hu : ulebDecode b with _ | ⟨len, r⟩ <;> rw [hu] at h
  · simp at h
  · obtain ⟨hlen, hr⟩ := elemsDecode_canonical hcn len r xs rest h
    rw [ulebDecode_canonical b len r hu, hr, seqEncode, hlen, List.append_assoc]

/-! ## Fixed-width integer values -/

/-- Encode an unsigned 16-bit value as two little-endian bytes. -/
def u16Encode (u : U16) : List Byte := leEncode 2 u.val

/-- Decode an unsigned 16-bit value from two little-endian bytes. -/
def u16Decode (b : List Byte) : Option (U16 × List Byte) :=
  match leDecode 2 b with
  | none => none
  | some (n, r) => if h : n < 65536 then some (⟨n, h⟩, r) else none

theorem u16Decode_u16Encode (u : U16) (rest : List Byte) :
    u16Decode (u16Encode u ++ rest) = some (u, rest) := by
  have hu := u.isLt
  simp only [u16Encode, u16Decode, leDecode_leEncode 2 u.val (by simp) rest]
  rw [dif_pos hu]

theorem u16Decode_canonical (b : List Byte) (u : U16) (rest : List Byte)
    (h : u16Decode b = some (u, rest)) : b = u16Encode u ++ rest := by
  unfold u16Decode at h
  rcases hd : leDecode 2 b with _ | ⟨n, r⟩ <;> rw [hd] at h
  · simp at h
  · obtain ⟨hlt, hb⟩ := leDecode_canonical 2 b n r hd
    simp only [] at h
    split at h
    · rename_i hlt2
      have h2 := Option.some.inj h
      have hval : ((⟨n, hlt2⟩ : U16), r).1 = (u, rest).1 := by rw [h2]
      have hrest : r = rest := congrArg Prod.snd h2
      simp only [] at hval
      subst hrest
      rw [hb, ← hval, u16Encode]
    · simp at h

/-- Encode an unsigned 64-bit value as eight little-endian bytes. -/
def u64Encode (u : U64) : List Byte := leEncode 8 u.val

/-- Decode an unsigned 64-bit value from eight little-endian bytes. -/
def u64Decode (b : List Byte) : Option (U64 × List Byte) :=
  match leDecode 8 b with
  | none => none
  | some (n, r) => if h : n < 2 ^ 64 then some (⟨n, h⟩, r) else none

theorem u64Decode_u64Encode (u : U64) (rest : List Byte) :
    u64Decode (u64Encode u ++ rest) = some (u, rest) := by
  have hu := u.isLt
  simp only [u64Encode, u64Decode, leDecode_leEncode 8 u.val (by simp) rest]
  rw [dif_pos hu]

theorem u64Decode_canonical (b : List Byte) (u : U64) (rest : List Byte)
    (h : u64Decode b = some (u, rest)) : b = u64Encode u ++ rest := by
  unfold u64Decode at h
  rcases hd : leDecode 8 b with _ | ⟨n, r⟩ <;> rw [hd] at h
  · simp at h
  · obtain ⟨hlt, hb⟩ := leDecode_canonical 8 b n r hd
    simp only [] at h
    split at h
    · rename_i hlt2
      have h2 := Option.some.inj h
      have hval : ((⟨n, hlt2⟩ : U64), r).1 = (u, rest).1 := by rw [h2]
      have hrest : r = rest := congrArg Prod.snd h2
      simp only [] at hval
      subst hrest
      rw [hb, ← hval, u64Encode]
    · simp at h

/-! ## The textual value tree

Modelled from the spec, section 4.2 and section 6: serde_json is not under
src/, so the textual wire format is represented as a tree of JSON values.
A base64-encoded byte payload is carried as the byte sequence it denotes
(the base64 transport encoding is a bijection, so nothing is lost), via the
dedicated constructor. -/

/-- A JSON value as produced by the readable mode of the codec. -/
inductive Json : Type where
  | null : Json
  | bool (b : Bool) : Json
  | num (n : Nat) : Json
  | str (s : String) : Json
  | bytes (bs : List Byte) : Json
  | arr (elems : List Json) : Json
  | obj (fields : List (String × Json)) : Json

/-- Look up the first field with the given name in a JSON object's field
list (serde reads named fields from the map). -/
def getField : List (String × Json) → String → Option Json
  | [], _ => none
  | (k, v) :: t, s => if k = s then some v else getField t s

/-! ## Decimal strings for 64-bit integers

Modelled from the spec: the readable display wrapper for u64 fields is not
under src/; the spec fixes it as decimal-string text. -/

/-- Render a natural number as its decimal digit string. -/
def natToDecimal (n : Nat) : String :=
  if n = 0 then String.mk [Char.ofNat 48]
  else String.mk ((Nat.digits 10 n).reverse.map (fun d => Char.ofNat (48 + d)))

/-- Parse a single decimal digit character. -/
def digitValue (c : Char) : Option Nat :=
  if 48 ≤ c.toNat ∧ c.toNat ≤ 57 then some (c.toNat - 48) else none

/-- Parse a list of decimal digit characters. -/
def parseDigits : List Char → Option (List Nat)
  | [] => some []
  | c :: cs =>
    match digitValue c, parseDigits cs with
    | some d, some ds => some (d :: ds)
    | _, _ => none

/-- Parse a nonempty string of decimal digits as a natural number. -/
def decimalToNat (s : String) : Option Nat :=
  if s.data = [] then none
  else
    match parseDigits s.data with
    | none => none
    | some ds => some (ds.foldl (fun acc d => 10 * acc + d) 0)

theorem digitValue_ofNat {d : Nat} (hd : d < 10) :
    digitValue (Char.ofNat (48 + d)) = some d := by
  interval_cases d <;> decide

theorem parseDigits_map {l : List Nat} (hl : ∀ d ∈ l, d < 10) :
    parseDigits (l.map (fun d => Char.ofNat (48 + d))) = some l := by
  induction l with
  | nil => rfl
  | cons d t ih =>
    have hd : d < 10 := hl d (by simp)
    have ht := ih (fun x hx => hl x (by simp [hx]))
    simp [parseDigits, digitValue_ofNat hd, ht]

theorem foldl_decimal (l : List Nat) (acc : Nat) :
    l.reverse.foldl (fun a d => 10 * a + d) acc =
      acc * 10 ^ l.length + Nat.ofDigits 10 l := by
  induction l generalizing acc with
  | nil => simp
  | cons d t ih =>
    simp only [List.reverse_cons, List.foldl_append, List.foldl_cons, List.foldl_nil,
      List.length_cons, Nat.ofDigits_cons, ih]
    ring

theorem decimalToNat_natToDecimal (n : Nat) :
    decimalToNat (natToDecimal n) = some n := by
  by_cases h0 : n = 0
  · subst h0
    decide
  · rw [natToDecimal, if_neg h0]
    have hne : (Nat.digits 10 n).reverse.map (fun d => Char.ofNat (48 + d)) ≠ [] := by
      simp [Nat.digits_ne_nil_iff_ne_zero, h0]
    rw [decimalToNat, if_neg hne]
    rw [show (String.mk ((Nat.digits 10 n).reverse.map (fun d => Char.ofNat (48 + d)))).data
      = (Nat.digits 10 n).reverse.map (fun d => Char.ofNat (48 + d)) from rfl]
    rw [parseDigits_map (fun d hd => Nat.digits_lt_base (by omega) (List.mem_reverse.mp hd))]
    simp only []
    rw [foldl_decimal]
    simp [Nat.ofDigits_digits]

/-! ## The domain data model

Translated from serialization.rs and the types it serializes (spec,
section 3).  The primitive types out of scope for the codec (addresses,
object identifiers, digests, signatures, the per-variant payload records of
TransactionKind and Command) are opaque byte values to this core per the
spec; they are modelled as byte lists carried through the codec by the
canonical length-prefixed leaf codec, whose internal format decides none of
the claims. -/

/-- Opaque leaf values: fixed byte payloads the codec does not interpret. -/
abbrev OpaqueBytes := List Byte

abbrev Address := OpaqueBytes
abbrev ObjectId := OpaqueBytes
abbrev ObjectReference := OpaqueBytes
abbrev CheckpointDigest := OpaqueBytes
abbrev UserSignature := OpaqueBytes
abbrev GasPayment := OpaqueBytes
abbrev TransactionExpiration := OpaqueBytes
abbrev ProgrammableTransaction := OpaqueBytes
abbrev ChangeEpoch := OpaqueBytes
abbrev GenesisTransaction := OpaqueBytes
abbrev ConsensusCommitPrologue := OpaqueBytes
abbrev AuthenticatorStateUpdate := OpaqueBytes
abbrev RandomnessStateUpdate := OpaqueBytes
abbrev ConsensusCommitPrologueV2 := OpaqueBytes
abbrev AuthenticatorStateExpire := OpaqueBytes
abbrev MoveCall := OpaqueBytes
abbrev TransferObjects := OpaqueBytes
abbrev SplitCoins := OpaqueBytes
abbrev MergeCoins := OpaqueBytes
abbrev Publish := OpaqueBytes
abbrev MakeMoveVector := OpaqueBytes
abbrev Upgrade := OpaqueBytes

/-- A reference into a programmable transaction's input or result space. -/
inductive Argument : Type where
  | gasCoin : Argument
  | input (ix : U16) : Argument
  | result (ix : U16) : Argument
  | nestedResult (ix sub : U16) : Argument
deriving DecidableEq

/-- A declared input to a programmable transaction. -/
inductive InputArgument : Type where
  | pure (value : List Byte) : InputArgument
  | immutableOrOwned (objectRef : ObjectReference) : InputArgument
  | shared (objectId : ObjectId) (initialSharedVersion : U64) (mutable : Bool) :
      InputArgument
  | receiving (objectRef : ObjectReference) : InputArgument
deriving DecidableEq

/-- The object half of the binary-only intermediate sum type for input
arguments (ObjectArg in serialization.rs). -/
inductive ObjectArg : Type where
  | immutableOrOwned (objectRef : ObjectReference) : ObjectArg
  | shared (objectId : ObjectId) (initialSharedVersion : U64) (mutable : Bool) :
      ObjectArg
  | receiving (objectRef : ObjectReference) : ObjectArg
deriving DecidableEq

/-- The binary-only intermediate sum type for input arguments (CallArg in
serialization.rs): Pure at the top level, the three object shapes nested
under the Object variant. -/
inductive CallArg : Type where
  | pure (value : List Byte) : CallArg
  | object (arg : ObjectArg) : CallArg
deriving DecidableEq

/-- A programmable-transaction operation. -/
inductive Command : Type where
  | moveCall (c : MoveCall) : Command
  | transferObjects (c : TransferObjects) : Command
  | splitCoins (c : SplitCoins) : Command
  | mergeCoins (c : MergeCoins) : Command
  | publish (c : Publish) : Command
  | makeMoveVector (c : MakeMoveVector) : Command
  | upgrade (c : Upgrade) : Command
deriving DecidableEq

/-- An end-of-epoch sub-transaction kind. -/
inductive EndOfEpochTransactionKind : Type where
  | changeEpoch (c : ChangeEpoch) : EndOfEpochTransactionKind
  | authenticatorStateCreate : EndOfEpochTransactionKind
  | authenticatorStateExpire (c : AuthenticatorStateExpire) :
      EndOfEpochTransactionKind
  | randomnessStateCreate : EndOfEpochTransactionKind
  | denyListStateCreate : EndOfEpochTransactionKind
  | bridgeStateCreate (chainId : CheckpointDigest) : EndOfEpochTransactionKind
  | bridgeCommitteeInit (bridgeObjectVersion : U64) : EndOfEpochTransactionKind
deriving DecidableEq

/-- The transaction kind, with the fixed variant order of the source. -/
inductive TransactionKind : Type where
  | programmableTransaction (k : ProgrammableTransaction) : TransactionKind
  | changeEpoch (k : ChangeEpoch) : TransactionKind
  | genesis (k : GenesisTransaction) : TransactionKind
  | consensusCommitPrologue (k : ConsensusCommitPrologue) : TransactionKind
  | authenticatorStateUpdate (k : AuthenticatorStateUpdate) : TransactionKind
  | endOfEpoch (commands : List EndOfEpochTransactionKind) : TransactionKind
  | randomnessStateUpdate (k : RandomnessStateUpdate) : TransactionKind
  | consensusCommitPrologueV2 (k : ConsensusCommitPrologueV2) : TransactionKind
deriving DecidableEq

/-- A transaction: kind, sender, gas payment and expiration. -/
structure Transaction : Type where
  kind : TransactionKind
  sender : Address
  gasPayment : GasPayment
  expiration : TransactionExpiration
deriving DecidableEq

/-- A transaction together with its ordered signature list. -/
structure SignedTransaction : Type where
  transaction : Transaction
  signatures : List UserSignature
deriving DecidableEq

/-! ## Binary codecs

Translated from the non-human-readable serde branches of serialization.rs,
composed with the BCS primitives above: a sum type writes the minimal
varint of its zero-based variant index then the variant's fields in order;
a struct writes its fields in order. -/

/-- Binary encoding of Argument (BinaryArgument in the source). -/
def Argument.encodeBin : Argument → List Byte
  | .gasCoin => ulebEncode 0
  | .input i => ulebEncode 1 ++ u16Encode i
  | .result r => ulebEncode 2 ++ u16Encode r
  | .nestedResult r s => ulebEncode 3 ++ u16Encode r ++ u16Encode s

/-- Binary decoding of Argument. -/
def Argument.decodeBin (b : List Byte) : Option (Argument × List Byte) :=
  match ulebDecode b with
  | none => none
  | some (tag, r) =>
    if tag = 0 then some (.gasCoin, r)
    else if tag = 1 then
      match u16Decode r with
      | none => none
      | some (i, r2) => some (.input i, r2)
    else if tag = 2 then
      match u16Decode r with
      | none => none
      | some (i, r2) => some (.result i, r2)
    else if tag = 3 then
      match u16Decode r with
      | none => none
      | some (i, r2) =>
        match u16Decode r2 with
        | none => none
        | some (j, r3) => some (.nestedResult i j, r3)
    else none

theorem argument_bin_roundtrip (a : Argument) (rest : List Byte) :
    Argument.decodeBin (a.encodeBin ++ rest) = some (a, rest) := by
  cases a <;>
    simp [Argument.encodeBin, Argument.decodeBin, List.append_assoc,
      ulebDecode_ulebEncode, u16Decode_u16Encode]

theorem argument_bin_canonical (b : List Byte) (a : Argument)
    (rest : List Byte) (h : Argument.decodeBin b = some (a, rest)) :
    b = a.encodeBin ++ rest := by
  unfold Argument.decodeBin at h
  rcases hu : ulebDecode b with _ | ⟨tag, r⟩ <;> rw [hu] at h
  · simp at h
  · simp only [] at h
    have hb := ulebDecode_canonical b tag r hu
    split_ifs at h with h0 h1 h2 h3
    · obtain ⟨rfl, rfl⟩ := by simpa using h
      subst h0
      exact hb
    · rcases hd : u16Decode r with _ | ⟨i, r2⟩ <;> rw [hd] at h
      · simp at h
      · obtain ⟨rfl, rfl⟩ := by simpa using h
        subst h1
        rw [hb, u16Decode_canonical r i r2 hd, Argument.encodeBin, List.append_assoc]
    · rcases hd : u16Decode r with _ | ⟨i, r2⟩ <;> rw [hd] at h
      · simp at h
      · obtain ⟨rfl, rfl⟩ := by simpa using h
        subst h2
        rw [hb, u16Decode_canonical r i r2 hd, Argument.encodeBin, List.append_assoc]
    · rcases hd : u16Decode r with _ | ⟨i, r2⟩ <;> rw [hd] at h
      · simp at h
      · simp only [] at h
        rcases hd2 : u16Decode r2 with _ | ⟨j, r3⟩ <;> rw [hd2] at h
        · simp at h
        · obtain ⟨rfl, rfl⟩ := by simpa using h
          subst h3
          rw [hb, u16Decode_canonical r i r2 hd, u16Decode_canonical r2 j r3 hd2,
            Argument.encodeBin, List.append_assoc, List.append_assoc]

/-- Binary encoding of ObjectArg: a 3-way sum in the declared order
ImmutableOrOwned, Shared, Receiving. -/
def ObjectArg.encodeBin : ObjectArg → List Byte
  | .immutableOrOwned r => ulebEncode 0 ++ bytesEncode r
  | .shared oid v m => ulebEncode 1 ++ bytesEncode oid ++ u64Encode v ++ boolEncode m
  | .receiving r => ulebEncode 2 ++ bytesEncode r

/-- Binary decoding of ObjectArg. -/
def ObjectArg.decodeBin (b : List Byte) : Option (ObjectArg × List Byte) :=
  match ulebDecode b with
  | none => none
  | some (tag, r) =>
    if tag = 0 then
      match bytesDecode r with
      | none => none
      | some (v, r2) => some (.immutableOrOwned v, r2)
    else if tag = 1 then
      match bytesDecode r with
      | none => none
      | some (oid, r2) =>
        match u64Decode r2 with
        | none => none
        | some (ver, r3) =>
          match boolDecode r3 with
          | none => none
          | some (m, r4) => some (.shared oid ver m, r4)
    else if tag = 2 then
      match bytesDecode r with
      | none => none
      | some (v, r2) => some (.receiving v, r2)
    else none

theorem objectArg_bin_roundtrip (a : ObjectArg) (rest : List Byte) :
    ObjectArg.decodeBin (a.encodeBin ++ rest) = some (a, rest) := by
  cases a <;>
    simp [ObjectArg.encodeBin, ObjectArg.decodeBin, List.append_assoc,
      ulebDecode_ulebEncode, bytesDecode_bytesEncode, u64Decode_u64Encode,
      boolDecode_boolEncode]

theorem objectArg_bin_canonical (b : List Byte) (a : ObjectArg)
    (rest : List Byte) (h : ObjectArg.decodeBin b = some (a, rest)) :
    b = a.encodeBin ++ rest := by
  unfold ObjectArg.decodeBin at h
  rcases hu : ulebDecode b with _ | ⟨tag, r⟩ <;> rw [hu] at h
  · simp at h
  · simp only [] at h
    have hb := ulebDecode_canonical b tag r hu
    split_ifs at h with h0 h1 h2
    · rcases hd : bytesDecode r with _ | ⟨v, r2⟩ <;> rw [hd] at h
      · simp at h
      · obtain ⟨rfl, rfl⟩ := by simpa using h
        subst h0
        rw [hb, bytesDecode_canonical r v r2 hd, ObjectArg.encodeBin, List.append_assoc]
    · rcases hd : bytesDecode r with _ | ⟨oid, r2⟩ <;> rw [hd] at h
      · simp at h
      · simp only [] at h
        rcases hd2 : u64Decode r2 with _ | ⟨ver, r3⟩ <;> rw [hd2] at h
        · simp at h
        · simp only [] at h
          rcases hd3 : boolDecode r3 with _ | ⟨m, r4⟩ <;> rw [hd3] at h
          · simp at h
          · obtain ⟨rfl, rfl⟩ := by simpa using h
            subst h1
            rw [hb, bytesDecode_canonical r oid r2 hd, u64Decode_canonical r2 ver r3 hd2,
              boolDecode_canonical r3 m r4 hd3, ObjectArg.encodeBin,
              List.append_assoc, List.append_assoc, List.append_assoc]
    · rcases hd : bytesDecode r with _ | ⟨v, r2⟩ <;> rw [hd] at h
      · simp at h
      · obtain ⟨rfl, rfl⟩ := by simpa using h
        subst h2
        rw [hb, bytesDecode_canonical r v r2 hd, ObjectArg.encodeBin, List.append_assoc]

/-- Binary encoding of CallArg: Pure then Object, in declared order. -/
def CallArg.encodeBin : CallArg → List Byte
  | .pure v => ulebEncode 0 ++ bytesEncode v
  | .object o => ulebEncode 1 ++ o.encodeBin

/-- Binary decoding of CallArg. -/
def CallArg.decodeBin (b : List Byte) : Option (CallArg × List Byte) :=
  match ulebDecode b with
  | none => none
  | some (tag, r) =>
    if tag = 0 then
      match bytesDecode r with
      | none => none
      | some (v, r2) => some (.pure v, r2)
    else if tag = 1 then
      match ObjectArg.decodeBin r with
      | none => none
      | some (o, r2) => some (.object o, r2)
    else none

theorem callArg_bin_roundtrip (a : CallArg) (rest : List Byte) :
    CallArg.decodeBin (a.encodeBin ++ rest) = some (a, rest) := by
  cases a <;>
    simp [CallArg.encodeBin, CallArg.decodeBin, List.append_assoc,
      ulebDecode_ulebEncode, bytesDecode_bytesEncode, objectArg_bin_roundtrip]

theorem callArg_bin_canonical (b : List Byte) (a : CallArg)
    (rest : List Byte) (h : CallArg.decodeBin b = some (a, rest)) :
    b = a.encodeBin ++ rest := by
  unfold CallArg.decodeBin at h
  rcases hu : ulebDecode b with _ | ⟨tag, r⟩ <;> rw [hu] at h
  · simp at h
  · simp only [] at h
    have hb := ulebDecode_canonical b tag r hu
    split_ifs at h with h0 h1
    · rcases hd : bytesDecode r with _ | ⟨v, r2⟩ <;> rw [hd] at h
      · simp at h
      · obtain ⟨rfl, rfl⟩ := by simpa using h
        subst h0
        rw [hb, bytesDecode_canonical r v r2 hd, CallArg.encodeBin, List.append_assoc]
    · rcases hd : ObjectArg.decodeBin r with _ | ⟨o, r2⟩ <;> rw [hd] at h
      · simp at h
      · obtain ⟨rfl, rfl⟩ := by simpa using h
        subst h1
        rw [hb, objectArg_bin_canonical r o r2 hd, CallArg.encodeBin,
          List.append_assoc]

/-- The per-variant mapping from the domain input argument to the binary
intermediate sum type (the non-human-readable Serialize branch). -/
def InputArgument.toCallArg : InputArgument → CallArg
  | .pure value => .pure value
  | .immutableOrOwned objectRef => .object (.immutableOrOwned objectRef)
  | .shared objectId initialSharedVersion mutable =>
      .object (.shared objectId initialSharedVersion mutable)
  | .receiving objectRef => .object (.receiving objectRef)

/-- The inverse per-variant mapping applied after binary decoding (the
non-human-readable Deserialize branch). -/
def CallArg.toInputArgument : CallArg → InputArgument
  | .pure value => .pure value
  | .object (.immutableOrOwned objectRef) => .immutableOrOwned objectRef
  | .object (.shared objectId initialSharedVersion mutable) =>
      .shared objectId initialSharedVersion mutable
  | .object (.receiving objectRef) => .receiving objectRef

/-- Binary encoding of InputArgument: through the intermediate CallArg. -/
def InputArgument.encodeBin (a : InputArgument) : List Byte :=
  a.toCallArg.encodeBin

/-- Binary decoding of InputArgument: decode a CallArg, then map back. -/
def InputArgument.decodeBin (b : List Byte) : Option (InputArgument × List Byte) :=
  match CallArg.decodeBin b with
  | none => none
  | some (c, r) => some (c.toInputArgument, r)

theorem toInputArgument_toCallArg (a : InputArgument) :
    a.toCallArg.toInputArgument = a := by
  cases a <;> rfl

theorem toCallArg_toInputArgument (c : CallArg) :
    c.toInputArgument.toCallArg = c := by
  rcases c with v | o
  · rfl
  · cases o <;> rfl

theorem inputArgument_bin_roundtrip (a : InputArgument) (rest : List Byte) :
    InputArgument.decodeBin (a.encodeBin ++ rest) = some (a, rest) := by
  simp [InputArgument.encodeBin, InputArgument.decodeBin, callArg_bin_roundtrip,
    toInputArgument_toCallArg]

theorem inputArgument_bin_canonical (b : List Byte) (a : InputArgument)
    (rest : List Byte) (h : InputArgument.decodeBin b = some (a, rest)) :
    b = a.encodeBin ++ rest := by
  unfold InputArgument.decodeBin at h
  rcases hd : CallArg.decodeBin b with _ | ⟨c, r⟩ <;> rw [hd] at h
  · simp at h
  · obtain ⟨rfl, rfl⟩ := by simpa using h
    rw [callArg_bin_canonical b c r hd, InputArgument.encodeBin,
      toCallArg_toInputArgument]

/-- Binary encoding of Command (BinaryCommand in the source): the variant's
zero-based index in declared order, then its payload. -/
def Command.encodeBin : Command → List Byte
  | .moveCall c => ulebEncode 0 ++ bytesEncode c
  | .transferObjects c => ulebEncode 1 ++ bytesEncode c
  | .splitCoins c => ulebEncode 2 ++ bytesEncode c
  | .mergeCoins c => ulebEncode 3 ++ bytesEncode c
  | .publish c => ulebEncode 4 ++ bytesEncode c
  | .makeMoveVector c => ulebEncode 5 ++ bytesEncode c
  | .upgrade c => ulebEncode 6 ++ bytesEncode c

/-- Binary decoding of Command. -/
def Command.decodeBin (b : List Byte) : Option (Command × List Byte) :=
  match ulebDecode b with
  | none => none
  | some (tag, r) =>
    if _h : tag < 7 then
      match bytesDecode r with
      | none => none
      | some (c, r2) =>
        if tag = 0 then some (.moveCall c, r2)
        else if tag = 1 then some (.transferObjects c, r2)
        else if tag = 2 then some (.splitCoins c, r2)
        else if tag = 3 then some (.mergeCoins c, r2)
        else if tag = 4 then some (.publish c, r2)
        else if tag = 5 then some (.makeMoveVector c, r2)
        else some (.upgrade c, r2)
    else none

theorem command_bin_roundtrip (a : Command) (rest : List Byte) :
    Command.decodeBin (a.encodeBin ++ rest) = some (a, rest) := by
  cases a <;>
    simp [Command.encodeBin, Command.decodeBin, List.append_assoc,
      ulebDecode_ulebEncode, bytesDecode_bytesEncode]

theorem command_bin_canonical (b : List Byte) (a : Command)
    (rest : List Byte) (h : Command.decodeBin b = some (a, rest)) :
    b = a.encodeBin ++ rest := by
  unfold Command.decodeBin at h
  rcases hu : ulebDecode b with _ | ⟨tag, r⟩ <;> rw [hu] at h
  · simp at h
  · simp only [] at h
    have hb := ulebDecode_canonical b tag r hu
    split at h
    · rcases hd : bytesDecode r with _ | ⟨c, r2⟩ <;> rw [hd] at h
      · simp at h
      · simp only [] at h
        have hr := bytesDecode_canonical r c r2 hd
        split_ifs at h with h0 h1 h2 h3 h4 h5 <;>
          · obtain ⟨rfl, rfl⟩ := by simpa using h
            first
            | (subst h0; rw [hb, hr, Command.encodeBin, List.append_assoc])
            | (subst h1; rw [hb, hr, Command.encodeBin, List.append_assoc])
            | (subst h2; rw [hb, hr, Command.encodeBin, List.append_assoc])
            | (subst h3; rw [hb, hr, Command.encodeBin, List.append_assoc])
            | (subst h4; rw [hb, hr, Command.encodeBin, List.append_assoc])
            | (subst h5; rw [hb, hr, Command.encodeBin, List.append_assoc])
            | (have htag : tag = 6 := by omega
               subst htag
               rw [hb, hr, Command.encodeBin, List.append_assoc])
    · simp at h

/-- Binary encoding of EndOfEpochTransactionKind
(BinaryEndOfEpochTransactionKind in the source): declared order ChangeEpoch,
AuthenticatorStateCreate, AuthenticatorStateExpire, RandomnessStateCreate,
DenyListStateCreate, BridgeStateCreate, BridgeCommitteeInit; unit variants
contribute no payload bytes. -/
def EndOfEpochTransactionKind.encodeBin : EndOfEpochTransactionKind → List Byte
  | .changeEpoch c => ulebEncode 0 ++ bytesEncode c
  | .authenticatorStateCreate => ulebEncode 1
  | .authenticatorStateExpire c => ulebEncode 2 ++ bytesEncode c
  | .randomnessStateCreate => ulebEncode 3
  | .denyListStateCreate => ulebEncode 4
  | .bridgeStateCreate chainId => ulebEncode 5 ++ bytesEncode chainId
  | .bridgeCommitteeInit v => ulebEncode 6 ++ u64Encode v

/-- Binary decoding of EndOfEpochTransactionKind. -/
def EndOfEpochTransactionKind.decodeBin (b : List Byte) :
    Option (EndOfEpochTransactionKind × List Byte) :=
  match ulebDecode b with
  | none => none
  | some (tag, r) =>
    if tag = 0 then
      match bytesDecode r with
      | none => none
      | some (c, r2) => some (.changeEpoch c, r2)
    else if tag = 1 then some (.authenticatorStateCreate, r)
    else if tag = 2 then
      match bytesDecode r with
      | none => none
      | some (c, r2) => some (.authenticatorStateExpire c, r2)
    else if tag = 3 then some (.randomnessStateCreate, r)
    else if tag = 4 then some (.denyListStateCreate, r)
    else if tag = 5 then
      match bytesDecode r with
      | none => none
      | some (c, r2) => some (.bridgeStateCreate c, r2)
    else if tag = 6 then
      match u64Decode r with
      | none => none
      | some (v, r2) => some (.bridgeCommitteeInit v, r2)
    else none

theorem EndOfEpochtransactionKind_bin_roundtrip
    (a : EndOfEpochTransactionKind) (rest : List Byte) :
    EndOfEpochTransactionKind.decodeBin (a.encodeBin ++ rest) = some (a, rest) := by
  cases a <;>
    simp [EndOfEpochTransactionKind.encodeBin, EndOfEpochTransactionKind.decodeBin,
      List.append_assoc, ulebDecode_ulebEncode, bytesDecode_bytesEncode,
      u64Decode_u64Encode]

theorem EndOfEpochtransactionKind_bin_canonical (b : List Byte)
    (a : EndOfEpochTransactionKind) (rest : List Byte)
    (h : EndOfEpochTransactionKind.decodeBin b = some (a, rest)) :
    b = a.encodeBin ++ rest := by
  unfold EndOfEpochTransactionKind.decodeBin at h
  rcases hu : ulebDecode b with _ | ⟨tag, r⟩ <;> rw [hu] at h
  · simp at h
  · simp only [] at h
    have hb := ulebDecode_canonical b tag r hu
    split_ifs at h with h0 h1 h2 h3 h4 h5 h6
    · rcases hd : bytesDecode r with _ | ⟨c, r2⟩ <;> rw [hd] at h
      · simp at h
      · obtain ⟨rfl, rfl⟩ := by simpa using h
        subst h0
        rw [hb, bytesDecode_canonical r c r2 hd,
          EndOfEpochTransactionKind.encodeBin, List.append_assoc]
    · obtain ⟨rfl, rfl⟩ := by simpa using h
      subst h1
      exact hb
    · rcases hd : bytesDecode r with _ | ⟨c, r2⟩ <;> rw [hd] at h
      · simp at h
      · obtain ⟨rfl, rfl⟩ := by simpa using h
        subst h2
        rw [hb, bytesDecode_canonical r c r2 hd,
          EndOfEpochTransactionKind.encodeBin, List.append_assoc]
    · obtain ⟨rfl, rfl⟩ := by simpa using h
      subst h3
      exact hb
    · obtain ⟨rfl, rfl⟩ := by simpa using h
      subst h4
      exact hb
    · rcases hd : bytesDecode r with _ | ⟨c, r2⟩ <;> rw [hd] at h
      · simp at h
      · obtain ⟨rfl, rfl⟩ := by simpa using h
        subst h5
        rw [hb, bytesDecode_canonical r c r2 hd,
          EndOfEpochTransactionKind.encodeBin, List.append_assoc]
    · rcases hd : u64Decode r with _ | ⟨v, r2⟩ <;> rw [hd] at h
      · simp at h
      · obtain ⟨rfl, rfl⟩ := by simpa using h
        subst h6
        rw [hb, u64Decode_canonical r v r2 hd,
          EndOfEpochTransactionKind.encodeBin, List.append_assoc]

/-- Binary encoding of TransactionKind (BinaryTransactionKind in the
source): the variant's zero-based index in the fixed declaration order,
then its payload. -/
def TransactionKind.encodeBin : TransactionKind → List Byte
  | .programmableTransaction k => ulebEncode 0 ++ bytesEncode k
  | .changeEpoch k => ulebEncode 1 ++ bytesEncode k
  | .genesis k => ulebEncode 2 ++ bytesEncode k
  | .consensusCommitPrologue k => ulebEncode 3 ++ bytesEncode k
  | .authenticatorStateUpdate k => ulebEncode 4 ++ bytesEncode k
  | .endOfEpoch commands =>
      ulebEncode 5 ++ seqEncode EndOfEpochTransactionKind.encodeBin commands
  | .randomnessStateUpdate k => ulebEncode 6 ++ bytesEncode k
  | .consensusCommitPrologueV2 k => ulebEncode 7 ++ bytesEncode k

/-- Binary decoding of TransactionKind. -/
def TransactionKind.decodeBin (b : List Byte) :
    Option (TransactionKind × List Byte) :=
  match ulebDecode b with
  | none => none
  | some (tag, r) =>
    if tag = 5 then
      match seqDecode EndOfEpochTransactionKind.decodeBin r with
      | none => none
      | some (cmds, r2) => some (.endOfEpoch cmds, r2)
    else if _h : tag < 8 then
      match bytesDecode r with
      | none => none
      | some (k, r2) =>
        if tag = 0 then some (.programmableTransaction k, r2)
        else if tag = 1 then some (.changeEpoch k, r2)
        else if tag = 2 then some (.genesis k, r2)
        else if tag = 3 then some (.consensusCommitPrologue k, r2)
        else if tag = 4 then some (.authenticatorStateUpdate k, r2)
        else if tag = 6 then some (.randomnessStateUpdate k, r2)
        else some (.consensusCommitPrologueV2 k, r2)
    else none

theorem transactionKind_bin_roundtrip (a : TransactionKind)
    (rest : List Byte) :
    TransactionKind.decodeBin (a.encodeBin ++ rest) = some (a, rest) := by
  cases a <;>
    simp [TransactionKind.encodeBin, TransactionKind.decodeBin, List.append_assoc,
      ulebDecode_ulebEncode, bytesDecode_bytesEncode,
      seqDecode_seqEncode EndOfEpochtransactionKind_bin_roundtrip]

theorem transactionKind_bin_canonical (b : List Byte) (a : TransactionKind)
    (rest : List Byte) (h : TransactionKind.decodeBin b = some (a, rest)) :
    b = a.encodeBin ++ rest := by
  unfold TransactionKind.decodeBin at h
  rcases hu : ulebDecode b with _ | ⟨tag, r⟩ <;> rw [hu] at h
  · simp at h
  · simp only [] at h
    have hb := ulebDecode_canonical b tag r hu
    by_cases h5 : tag = 5
    · rw [if_pos h5] at h
      rcases hd : seqDecode EndOfEpochTransactionKind.decodeBin r with _ | ⟨cmds, r2⟩ <;>
        rw [hd] at h
      · simp at h
      · obtain ⟨rfl, rfl⟩ := by simpa using h
        subst h5
        rw [hb, seqDecode_canonical EndOfEpochtransactionKind_bin_canonical
          r cmds r2 hd, TransactionKind.encodeBin, List.append_assoc]
    · rw [if_neg h5] at h
      split at h
      · rcases hd : bytesDecode r with _ | ⟨k, r2⟩ <;> rw [hd] at h
        · simp at h
        · simp only [] at h
          have hr := bytesDecode_canonical r k r2 hd
          split_ifs at h with h0 h1 h2 h3 h4 h6 <;>
            · obtain ⟨rfl, rfl⟩ := by simpa using h
              first
              | (subst h0; rw [hb, hr, TransactionKind.encodeBin, List.append_assoc])
              | (subst h1; rw [hb, hr, TransactionKind.encodeBin, List.append_assoc])
              | (subst h2; rw [hb, hr, TransactionKind.encodeBin, List.append_assoc])
              | (subst h3; rw [hb, hr, TransactionKind.encodeBin, List.append_assoc])
              | (subst h4; rw [hb, hr, TransactionKind.encodeBin, List.append_assoc])
              | (subst h6; rw [hb, hr, TransactionKind.encodeBin, List.append_assoc])
              | (have htag : tag = 7 := by omega
                 subst htag
                 rw [hb, hr, TransactionKind.encodeBin, List.append_assoc])
      · simp at h

/-- Binary encoding of Transaction (BinaryTransactionData in the source):
the single V1 version variant (index 0), then kind, sender, gas payment and
expiration positionally. -/
def Transaction.encodeBin (t : Transaction) : List Byte :=
  ulebEncode 0 ++ t.kind.encodeBin ++ bytesEncode t.sender ++
    bytesEncode t.gasPayment ++ bytesEncode t.expiration

/-- Binary decoding of Transaction. -/
def Transaction.decodeBin (b : List Byte) : Option (Transaction × List Byte) :=
  match ulebDecode b with
  | none => none
  | some (tag, r) =>
    if tag = 0 then
      match TransactionKind.decodeBin r with
      | none => none
      | some (kind, r1) =>
        match bytesDecode r1 with
        | none => none
        | some (sender, r2) =>
          match bytesDecode r2 with
          | none => none
          | some (gasPayment, r3) =>
            match bytesDecode r3 with
            | none => none
            | some (expiration, r4) =>
              some (⟨kind, sender, gasPayment, expiration⟩, r4)
    else none

theorem transaction_bin_roundtrip (t : Transaction) (rest : List Byte) :
    Transaction.decodeBin (t.encodeBin ++ rest) = some (t, rest) := by
  simp [Transaction.encodeBin, Transaction.decodeBin, List.append_assoc,
    ulebDecode_ulebEncode, transactionKind_bin_roundtrip,
    bytesDecode_bytesEncode]

theorem transaction_bin_canonical (b : List Byte) (t : Transaction)
    (rest : List Byte) (h : Transaction.decodeBin b = some (t, rest)) :
    b = t.encodeBin ++ rest := by
  unfold Transaction.decodeBin at h
  rcases hu : ulebDecode b with _ | ⟨tag, r⟩ <;> rw [hu] at h
  · simp at h
  · simp only [] at h
    have hb := ulebDecode_canonical b tag r hu
    split_ifs at h with h0
    rcases hk : TransactionKind.decodeBin r with _ | ⟨kind, r1⟩ <;> rw [hk] at h
    · simp at h
    · simp only [] at h
      rcases hs : bytesDecode r1 with _ | ⟨sender, r2⟩ <;> rw [hs] at h
      · simp at h
      · simp only [] at h
        rcases hg : bytesDecode r2 with _ | ⟨gasPayment, r3⟩ <;> rw [hg] at h
        · simp at h
        · simp only [] at h
          rcases he : bytesDecode r3 with _ | ⟨expiration, r4⟩ <;> rw [he] at h
          · simp at h
          · obtain ⟨rfl, rfl⟩ := by simpa using h
            subst h0
            rw [hb, transactionKind_bin_canonical r kind r1 hk,
              bytesDecode_canonical r1 sender r2 hs,
              bytesDecode_canonical r2 gasPayment r3 hg,
              bytesDecode_canonical r3 expiration r4 he, Transaction.encodeBin]
            simp [List.append_assoc]

/-- Binary encoding of SignedTransaction (BinarySignedTransaction in the
source, without the intent envelope): the transaction then the signature
sequence. -/
def SignedTransaction.encodeBin (st : SignedTransaction) : List Byte :=
  st.transaction.encodeBin ++ seqEncode bytesEncode st.signatures

/-- Binary decoding of SignedTransaction. -/
def SignedTransaction.decodeBin (b : List Byte) :
    Option (SignedTransaction × List Byte) :=
  match Transaction.decodeBin b with
  | none => none
  | some (t, r) =>
    match seqDecode bytesDecode r with
    | none => none
    | some (sigs, r2) => some (⟨t, sigs⟩, r2)

theorem signedTransaction_bin_roundtrip (st : SignedTransaction)
    (rest : List Byte) :
    SignedTransaction.decodeBin (st.encodeBin ++ rest) = some (st, rest) := by
  simp [SignedTransaction.encodeBin, SignedTransaction.decodeBin, List.append_assoc,
    transaction_bin_roundtrip, seqDecode_seqEncode bytesDecode_bytesEncode]

theorem signedTransaction_bin_canonical (b : List Byte)
    (st : SignedTransaction) (rest : List Byte)
    (h : SignedTransaction.decodeBin b = some (st, rest)) :
    b = st.encodeBin ++ rest := by
  unfold SignedTransaction.decodeBin at h
  rcases ht : Transaction.decodeBin b with _ | ⟨t, r⟩ <;> rw [ht] at h
  · simp at h
  · simp only [] at h
    rcases hs : seqDecode bytesDecode r with _ | ⟨sigs, r2⟩ <;> rw [hs] at h
    · simp at h
    · obtain ⟨rfl, rfl⟩ := by simpa using h
      rw [transaction_bin_canonical b t r ht,
        seqDecode_canonical bytesDecode_canonical r sigs r2 hs,
        SignedTransaction.encodeBin, List.append_assoc]

/-! ## Top-level decoding (no trailing bytes)

Modelled from the spec, section 4.1: decoding must fail if trailing bytes
remain at the top level (the behavior of bcs from_bytes). -/

/-- Run a consuming decoder on a whole buffer, rejecting trailing bytes. -/
def decodeFull (dec : List Byte → Option (α × List Byte)) (b : List Byte) :
    Option α :=
  match dec b with
  | some (v, []) => some v
  | _ => none

theorem decodeFull_encode {dec : List Byte → Option (α × List Byte)}
    {enc : α → List Byte}
    (hrt : ∀ a rest, dec (enc a ++ rest) = some (a, rest)) (v : α) :
    decodeFull dec (enc v) = some v := by
  have h := hrt v []
  rw [List.append_nil] at h
  simp [decodeFull, h]

theorem decodeFull_canonical {dec : List Byte → Option (α × List Byte)}
    {enc : α → List Byte}
    (hcn : ∀ b a rest, dec b = some (a, rest) → b = enc a ++ rest)
    (b : List Byte) (v : α) (h : decodeFull dec b = some v) : enc v = b := by
  unfold decodeFull at h
  rcases hd : dec b with _ | ⟨a, r⟩ <;> rw [hd] at h
  · simp at h
  · match r, h with
    | [], h =>
      have ha : a = v := by simpa using h
      subst ha
      rw [hcn b a [] hd, List.append_nil]

/-! ## The signing envelope

Translated from the signed_transaction module of serialization.rs:
IntentMessageWrappedTransaction wraps the transaction in the 4-element
positional tuple (scope, version, app, transaction) with the three
single-byte context values all 0, and SignedTransactionWithIntentMessage
wraps the intent-wrapped transaction plus signatures in a sequence declared
to have exactly length 1. -/

/-- Decode failures surfaced by the signing-envelope layer.  The
invalid-intent error names the offending tuple as the source's message
does; the malformed-envelope error stands for the source's
expected-a-sequence-with-length-1 message; other decode failures
(unknown variant, malformed scalar, short input) are collapsed into one
constructor, since the envelope claims do not distinguish them. -/
inductive DecodeError : Type where
  | invalidIntent (scope version app : Byte) : DecodeError
  | malformedEnvelope : DecodeError
  | other : DecodeError
deriving DecidableEq

/-- Binary encoding of the intent-wrapped transaction
(IntentMessageWrappedTransaction serialize_as): the 4-element positional
tuple (scope, version, app, transaction) with the three context bytes 0. -/
def intentEncodeBin (t : Transaction) : List Byte :=
  0 :: 0 :: 0 :: t.encodeBin

/-- Binary decoding of the intent-wrapped transaction
(IntentMessageWrappedTransaction deserialize_as): read the whole 4-tuple,
then require the context tuple to be (0, 0, 0), failing with the
invalid-intent error naming the offending tuple otherwise. -/
def intentDecodeBin (b : List Byte) :
    Except DecodeError (Transaction × List Byte) :=
  match b with
  | scope :: version :: app :: r =>
    match Transaction.decodeBin r with
    | none => .error .other
    | some (t, r2) =>
      if scope = 0 ∧ version = 0 ∧ app = 0 then .ok (t, r2)
      else .error (.invalidIntent scope version app)
  | _ => .error .other

theorem intentDecodeBin_tuple (scope version app : Byte) (t : Transaction)
    (rest : List Byte) :
    intentDecodeBin (scope :: version :: app :: (t.encodeBin ++ rest)) =
      if scope = 0 ∧ version = 0 ∧ app = 0 then .ok (t, rest)
      else .error (.invalidIntent scope version app) := by
  simp [intentDecodeBin, transaction_bin_roundtrip]

theorem intentDecodeBin_intentEncodeBin (t : Transaction) (rest : List Byte) :
    intentDecodeBin (intentEncodeBin t ++ rest) = .ok (t, rest) := by
  simp [intentEncodeBin, intentDecodeBin_tuple]

theorem intentDecodeBin_canonical (b : List Byte) (t : Transaction)
    (rest : List Byte) (h : intentDecodeBin b = .ok (t, rest)) :
    b = intentEncodeBin t ++ rest := by
  unfold intentDecodeBin at h
  match b with
  | [] => simp at h
  | [_] => simp at h
  | [_, _] => simp at h
  | scope :: version :: app :: r =>
    simp only [] at h
    rcases hd : Transaction.decodeBin r with _ | ⟨t1, r2⟩ <;> rw [hd] at h
    · simp at h
    · simp only [] at h
      split_ifs at h with hc
      obtain ⟨rfl, rfl, rfl⟩ := hc
      obtain ⟨rfl, rfl⟩ := by simpa using h
      rw [transaction_bin_canonical r t1 r2 hd, intentEncodeBin]
      rfl

/-- Binary encoding of the signed-transaction envelope
(SignedTransactionWithIntentMessage serialize_as, binary branch): the
intent-wrapped transaction plus the signature sequence, wrapped in a
sequence container declared to have exactly length 1. -/
def SignedTransaction.encodeBinEnvelope (st : SignedTransaction) : List Byte :=
  ulebEncode 1 ++
    (intentEncodeBin st.transaction ++ seqEncode bytesEncode st.signatures)

/-- Binary decoding of the signed-transaction envelope
(SignedTransactionWithIntentMessage deserialize_as, binary branch): read
the sequence length, reject any length other than exactly 1 with the
malformed-envelope error, then read the single element. -/
def SignedTransaction.decodeBinEnvelope (b : List Byte) :
    Except DecodeError (SignedTransaction × List Byte) :=
  match ulebDecode b with
  | none => .error .other
  | some (len, r) =>
    if len ≠ 1 then .error .malformedEnvelope
    else
      match intentDecodeBin r with
      | .error e => .error e
      | .ok (t, r2) =>
        match seqDecode bytesDecode r2 with
        | none => .error .other
        | some (sigs, r3) => .ok (⟨t, sigs⟩, r3)

theorem decodeBinEnvelope_encodeBinEnvelope (st : SignedTransaction)
    (rest : List Byte) :
    SignedTransaction.decodeBinEnvelope (st.encodeBinEnvelope ++ rest) =
      .ok (st, rest) := by
  simp [SignedTransaction.encodeBinEnvelope, SignedTransaction.decodeBinEnvelope,
    List.append_assoc, ulebDecode_ulebEncode, intentDecodeBin_intentEncodeBin,
    seqDecode_seqEncode bytesDecode_bytesEncode]

theorem decodeBinEnvelope_length_ne_one (len : Nat) (hlen : len ≠ 1)
    (body : List Byte) :
    SignedTransaction.decodeBinEnvelope (ulebEncode len ++ body) =
      .error .malformedEnvelope := by
  simp [SignedTransaction.decodeBinEnvelope, ulebDecode_ulebEncode, hlen]

/-! ## Textual codecs

Translated from the human-readable serde branches of serialization.rs: an
internally tagged variant carries a named discriminant field with the
snake-case variant name, payload fields merged into the same container;
the transaction wrapper flattens the kind's fields next to its own named
fields; byte payloads are base64 text (carried as the bytes they denote);
64-bit integers are decimal strings.  The readable form of an opaque leaf
value is its payload under a single named field, modelled from the spec
(the leaf types are opaque to this core and their serializers are not
under src/). -/

/-- Extract a byte payload (the base64 content) from a JSON value. -/
def Json.asBytes : Json → Option (List Byte)
  | .bytes v => some v
  | _ => none

/-- Extract an unsigned 16-bit integer from a JSON number. -/
def Json.asU16 : Json → Option U16
  | .num n => if h : n < 65536 then some ⟨n, h⟩ else none
  | _ => none

/-- Extract an unsigned 64-bit integer from a JSON decimal string. -/
def Json.asU64Decimal : Json → Option U64
  | .str s =>
    match decimalToNat s with
    | none => none
    | some n => if h : n < 2 ^ 64 then some ⟨n, h⟩ else none
  | _ => none

/-- Extract a boolean from a JSON value. -/
def Json.asBool : Json → Option Bool
  | .bool b => some b
  | _ => none

/-- Render an unsigned 64-bit integer as a JSON decimal string (the
readable display wrapper for u64 fields). -/
def u64ToJson (u : U64) : Json := .str (natToDecimal u.val)

/-- Readable fields of an opaque leaf payload record: its byte payload
under one named field.  Modelled from the spec: the leaf serializers are
not under src/ and their shapes decide none of the claims. -/
def opaqueJsonFields (v : OpaqueBytes) : List (String × Json) :=
  [("data", Json.bytes v)]

/-- Readable fields of an object reference.  Modelled from the spec:
ObjectReference is opaque to this core. -/
def objectRefJsonFields (r : ObjectReference) : List (String × Json) :=
  [("object_reference", Json.bytes r)]

theorem asU16_num (i : U16) : (Json.num i.val).asU16 = some i := by
  simp only [Json.asU16]
  rw [dif_pos i.isLt]

theorem asU64Decimal_u64ToJson (u : U64) : (u64ToJson u).asU64Decimal = some u := by
  simp only [u64ToJson, Json.asU64Decimal, decimalToNat_natToDecimal]
  rw [dif_pos u.isLt]

/-- Decode every element of a JSON array. -/
def decodeJsonList (dec : Json → Option α) : List Json → Option (List α)
  | [] => some []
  | j :: js =>
    match dec j, decodeJsonList dec js with
    | some x, some xs => some (x :: xs)
    | _, _ => none

theorem decodeJsonList_map {dec : Json → Option α} {enc : α → Json}
    (hrt : ∀ a, dec (enc a) = some a) (xs : List α) :
    decodeJsonList dec (xs.map enc) = some xs := by
  induction xs with
  | nil => rfl
  | cons x t ih => simp [decodeJsonList, hrt, ih]

/-- Textual encoding of Argument (ReadableArgument in the source). -/
def Argument.encodeJson : Argument → Json
  | .gasCoin => .obj [("type", .str "gas_coin")]
  | .input i => .obj [("type", .str "input"), ("input", .num i.val)]
  | .result r => .obj [("type", .str "result"), ("result", .num r.val)]
  | .nestedResult r s => .obj [("type", .str "nested_result"),
      ("result", .num r.val), ("subresult", .num s.val)]

/-- Textual decoding of Argument. -/
def Argument.decodeJson : Json → Option Argument
  | .obj fields =>
    match getField fields "type" with
    | some (.str tag) =>
      if tag = "gas_coin" then some .gasCoin
      else if tag = "input" then
        match (getField fields "input").bind Json.asU16 with
        | some i => some (.input i)
        | none => none
      else if tag = "result" then
        match (getField fields "result").bind Json.asU16 with
        | some i => some (.result i)
        | none => none
      else if tag = "nested_result" then
        match (getField fields "result").bind Json.asU16,
          (getField fields "subresult").bind Json.asU16 with
        | some i, some j => some (.nestedResult i j)
        | _, _ => none
      else none
    | _ => none
  | _ => none

theorem argument_json_roundtrip (a : Argument) :
    Argument.decodeJson a.encodeJson = some a := by
  cases a <;>
    simp [Argument.encodeJson, Argument.decodeJson, getField, asU16_num]

/-- Textual encoding of InputArgument (ReadableInputArgument in the
source): a named type discriminant, base64 byte payloads, a decimal-string
initial shared version. -/
def InputArgument.encodeJson : InputArgument → Json
  | .pure value => .obj [("type", .str "pure"), ("value", .bytes value)]
  | .immutableOrOwned r =>
      .obj (("type", .str "immutable_or_owned") :: objectRefJsonFields r)
  | .shared oid v m => .obj [("type", .str "shared"), ("object_id", .bytes oid),
      ("initial_shared_version", u64ToJson v), ("mutable", .bool m)]
  | .receiving r => .obj (("type", .str "receiving") :: objectRefJsonFields r)

/-- Textual decoding of InputArgument. -/
def InputArgument.decodeJson : Json → Option InputArgument
  | .obj fields =>
    match getField fields "type" with
    | some (.str tag) =>
      if tag = "pure" then
        match (getField fields "value").bind Json.asBytes with
        | some v => some (.pure v)
        | none => none
      else if tag = "immutable_or_owned" then
        match (getField fields "object_reference").bind Json.asBytes with
        | some r => some (.immutableOrOwned r)
        | none => none
      else if tag = "shared" then
        match (getField fields "object_id").bind Json.asBytes,
          (getField fields "initial_shared_version").bind Json.asU64Decimal,
          (getField fields "mutable").bind Json.asBool with
        | some oid, some v, some m => some (.shared oid v m)
        | _, _, _ => none
      else if tag = "receiving" then
        match (getField fields "object_reference").bind Json.asBytes with
        | some r => some (.receiving r)
        | none => none
      else none
    | _ => none
  | _ => none

theorem inputArgument_json_roundtrip (a : InputArgument) :
    InputArgument.decodeJson a.encodeJson = some a := by
  cases a <;>
    simp [InputArgument.encodeJson, InputArgument.decodeJson, getField,
      objectRefJsonFields, Json.asBytes, Json.asBool, asU64Decimal_u64ToJson]

/-- Textual encoding of Command (ReadableCommand in the source): a named
command discriminant with the payload's fields merged in. -/
def Command.encodeJson : Command → Json
  | .moveCall c => .obj (("command", .str "move_call") :: opaqueJsonFields c)
  | .transferObjects c =>
      .obj (("command", .str "transfer_objects") :: opaqueJsonFields c)
  | .splitCoins c => .obj (("command", .str "split_coins") :: opaqueJsonFields c)
  | .mergeCoins c => .obj (("command", .str "merge_coins") :: opaqueJsonFields c)
  | .publish c => .obj (("command", .str "publish") :: opaqueJsonFields c)
  | .makeMoveVector c =>
      .obj (("command", .str "make_move_vector") :: opaqueJsonFields c)
  | .upgrade c => .obj (("command", .str "upgrade") :: opaqueJsonFields c)

/-- Textual decoding of Command. -/
def Command.decodeJson : Json → Option Command
  | .obj fields =>
    match getField fields "command" with
    | some (.str tag) =>
      match (getField fields "data").bind Json.asBytes with
      | some c =>
        if tag = "move_call" then some (.moveCall c)
        else if tag = "transfer_objects" then some (.transferObjects c)
        else if tag = "split_coins" then some (.splitCoins c)
        else if tag = "merge_coins" then some (.mergeCoins c)
        else if tag = "publish" then some (.publish c)
        else if tag = "make_move_vector" then some (.makeMoveVector c)
        else if tag = "upgrade" then some (.upgrade c)
        else none
      | none => none
    | _ => none
  | _ => none

theorem command_json_roundtrip (a : Command) :
    Command.decodeJson a.encodeJson = some a := by
  cases a <;>
    simp [Command.encodeJson, Command.decodeJson, getField, opaqueJsonFields,
      Json.asBytes]

/-- Textual encoding of EndOfEpochTransactionKind
(ReadableEndOfEpochTransactionKind in the source): a named kind
discriminant; unit variants carry only the discriminant; the bridge object
version is a decimal string. -/
def EndOfEpochTransactionKind.encodeJson : EndOfEpochTransactionKind → Json
  | .changeEpoch c => .obj (("kind", .str "change_epoch") :: opaqueJsonFields c)
  | .authenticatorStateCreate =>
      .obj [("kind", .str "authenticator_state_create")]
  | .authenticatorStateExpire c =>
      .obj (("kind", .str "authenticator_state_expire") :: opaqueJsonFields c)
  | .randomnessStateCreate => .obj [("kind", .str "randomness_state_create")]
  | .denyListStateCreate => .obj [("kind", .str "deny_list_state_create")]
  | .bridgeStateCreate chainId =>
      .obj [("kind", .str "bridge_state_create"), ("chain_id", .bytes chainId)]
  | .bridgeCommitteeInit v => .obj [("kind", .str "bridge_committee_init"),
      ("bridge_object_version", u64ToJson v)]

/-- Textual decoding of EndOfEpochTransactionKind. -/
def EndOfEpochTransactionKind.decodeJson : Json → Option EndOfEpochTransactionKind
  | .obj fields =>
    match getField fields "kind" with
    | some (.str tag) =>
      if tag = "change_epoch" then
        match (getField fields "data").bind Json.asBytes with
        | some c => some (.changeEpoch c)
        | none => none
      else if tag = "authenticator_state_create" then
        some .authenticatorStateCreate
      else if tag = "authenticator_state_expire" then
        match (getField fields "data").bind Json.asBytes with
        | some c => some (.authenticatorStateExpire c)
        | none => none
      else if tag = "randomness_state_create" then some .randomnessStateCreate
      else if tag = "deny_list_state_create" then some .denyListStateCreate
      else if tag = "bridge_state_create" then
        match (getField fields "chain_id").bind Json.asBytes with
        | some c => some (.bridgeStateCreate c)
        | none => none
      else if tag = "bridge_committee_init" then
        match (getField fields "bridge_object_version").bind Json.asU64Decimal with
        | some v => some (.bridgeCommitteeInit v)
        | none => none
      else none
    | _ => none
  | _ => none

theorem EndOfEpochtransactionKind_json_roundtrip
    (a : EndOfEpochTransactionKind) :
    EndOfEpochTransactionKind.decodeJson a.encodeJson = some a := by
  cases a <;>
    simp [EndOfEpochTransactionKind.encodeJson, EndOfEpochTransactionKind.decodeJson,
      getField, opaqueJsonFields, Json.asBytes, asU64Decimal_u64ToJson]

/-- Readable fields of TransactionKind (ReadableTransactionKind in the
source): a named kind discriminant with the payload's fields merged into
the same container; the end-of-epoch list sits under the named field
commands.  The field list rather than a closed object, because the
transaction wrapper flattens these fields next to its own. -/
def TransactionKind.jsonFields : TransactionKind → List (String × Json)
  | .programmableTransaction k =>
      ("kind", .str "programmable_transaction") :: opaqueJsonFields k
  | .changeEpoch k => ("kind", .str "change_epoch") :: opaqueJsonFields k
  | .genesis k => ("kind", .str "genesis") :: opaqueJsonFields k
  | .consensusCommitPrologue k =>
      ("kind", .str "consensus_commit_prologue") :: opaqueJsonFields k
  | .authenticatorStateUpdate k =>
      ("kind", .str "authenticator_state_update") :: opaqueJsonFields k
  | .endOfEpoch commands => [("kind", .str "end_of_epoch"),
      ("commands", .arr (commands.map EndOfEpochTransactionKind.encodeJson))]
  | .randomnessStateUpdate k =>
      ("kind", .str "randomness_state_update") :: opaqueJsonFields k
  | .consensusCommitPrologueV2 k =>
      ("kind", .str "consensus_commit_prologue_v2") :: opaqueJsonFields k

/-- Textual encoding of TransactionKind. -/
def TransactionKind.encodeJson (k : TransactionKind) : Json := .obj k.jsonFields

/-- Textual decoding of TransactionKind from a field list (used both for a
standalone kind object and for the fields flattened into a transaction). -/
def TransactionKind.decodeJsonFields (fields : List (String × Json)) :
    Option TransactionKind :=
  match getField fields "kind" with
  | some (.str tag) =>
    if tag = "end_of_epoch" then
      match getField fields "commands" with
      | some (.arr js) =>
        match decodeJsonList EndOfEpochTransactionKind.decodeJson js with
        | some cmds => some (.endOfEpoch cmds)
        | none => none
      | _ => none
    else
      match (getField fields "data").bind Json.asBytes with
      | some k =>
        if tag = "programmable_transaction" then some (.programmableTransaction k)
        else if tag = "change_epoch" then some (.changeEpoch k)
        else if tag = "genesis" then some (.genesis k)
        else if tag = "consensus_commit_prologue" then
          some (.consensusCommitPrologue k)
        else if tag = "authenticator_state_update" then
          some (.authenticatorStateUpdate k)
        else if tag = "randomness_state_update" then
          some (.randomnessStateUpdate k)
        else if tag = "consensus_commit_prologue_v2" then
          some (.consensusCommitPrologueV2 k)
        else none
      | none => none
  | _ => none

/-- Textual decoding of TransactionKind from a JSON value. -/
def TransactionKind.decodeJson : Json → Option TransactionKind
  | .obj fields => TransactionKind.decodeJsonFields fields
  | _ => none

theorem transactionKind_json_roundtrip (a : TransactionKind) :
    TransactionKind.decodeJson a.encodeJson = some a := by
  cases a <;>
    simp [TransactionKind.encodeJson, TransactionKind.decodeJson,
      TransactionKind.jsonFields, TransactionKind.decodeJsonFields, getField,
      opaqueJsonFields, Json.asBytes,
      decodeJsonList_map EndOfEpochtransactionKind_json_roundtrip]

/-- Readable fields of Transaction (ReadableTransactionDataRef in the
source): the version discriminant, the kind's fields flattened in, then
sender, gas payment and expiration as named fields. -/
def Transaction.jsonFields (t : Transaction) : List (String × Json) :=
  ("version", .str "1") :: t.kind.jsonFields ++
    [("sender", .bytes t.sender), ("gas_payment", .bytes t.gasPayment),
      ("expiration", .bytes t.expiration)]

/-- Textual encoding of Transaction. -/
def Transaction.encodeJson (t : Transaction) : Json := .obj t.jsonFields

/-- Textual decoding of Transaction from a field list (used both for a
standalone transaction object and for the fields flattened into a signed
transaction). -/
def Transaction.decodeJsonFields (fields : List (String × Json)) :
    Option Transaction :=
  match getField fields "version" with
  | some (.str v) =>
    if v = "1" then
      match TransactionKind.decodeJsonFields fields,
        (getField fields "sender").bind Json.asBytes,
        (getField fields "gas_payment").bind Json.asBytes,
        (getField fields "expiration").bind Json.asBytes with
      | some kind, some sender, some gasPayment, some expiration =>
        some ⟨kind, sender, gasPayment, expiration⟩
      | _, _, _, _ => none
    else none
  | _ => none

/-- Textual decoding of Transaction from a JSON value. -/
def Transaction.decodeJson : Json → Option Transaction
  | .obj fields => Transaction.decodeJsonFields fields
  | _ => none

theorem Transaction.decodeJsonFields_jsonFields (t : Transaction) :
    Transaction.decodeJsonFields t.jsonFields = some t := by
  obtain ⟨kind, sender, gasPayment, expiration⟩ := t
  cases kind <;>
    simp [Transaction.jsonFields, Transaction.decodeJsonFields,
      TransactionKind.jsonFields, TransactionKind.decodeJsonFields, getField,
      opaqueJsonFields, Json.asBytes,
      decodeJsonList_map EndOfEpochtransactionKind_json_roundtrip]

theorem transaction_json_roundtrip (t : Transaction) :
    Transaction.decodeJson t.encodeJson = some t :=
  Transaction.decodeJsonFields_jsonFields t

/-- Textual encoding of SignedTransaction (ReadableSignedTransactionRef in
the source, used by both Serialize and the readable branch of
SignedTransactionWithIntentMessage): the transaction's fields flattened
next to the signatures field, with no intent tuple and no sequence
wrapper. -/
def SignedTransaction.encodeJson (st : SignedTransaction) : Json :=
  .obj (st.transaction.jsonFields ++
    [("signatures", .arr (st.signatures.map Json.bytes))])

/-- Textual decoding of SignedTransaction. -/
def SignedTransaction.decodeJson : Json → Option SignedTransaction
  | .obj fields =>
    match Transaction.decodeJsonFields fields, getField fields "signatures" with
    | some t, some (.arr js) =>
      match decodeJsonList Json.asBytes js with
      | some sigs => some ⟨t, sigs⟩
      | none => none
    | _, _ => none
  | _ => none

theorem signedTransaction_json_roundtrip (st : SignedTransaction) :
    SignedTransaction.decodeJson st.encodeJson = some st := by
  obtain ⟨⟨kind, sender, gasPayment, expiration⟩, signatures⟩ := st
  cases kind <;>
    simp [SignedTransaction.encodeJson, SignedTransaction.decodeJson,
      Transaction.jsonFields, Transaction.decodeJsonFields,
      TransactionKind.jsonFields, TransactionKind.decodeJsonFields, getField,
      opaqueJsonFields, Json.asBytes,
      decodeJsonList_map EndOfEpochtransactionKind_json_roundtrip,
      decodeJsonList_map (fun v => (rfl : Json.asBytes (Json.bytes v) = some v))]

/-! ## The claims -/

/-- C1: for every entity type covered by the codec (Transaction,
TransactionKind, EndOfEpochTransactionKind, Command, Argument,
InputArgument, SignedTransaction) and for each mode (Textual, Binary),
decoding the encoding of any valid value returns exactly that value,
with no loss of any field. -/
theorem C1_roundtrip :
    (∀ t : Transaction, decodeFull Transaction.decodeBin t.encodeBin = some t) ∧
    (∀ t : Transaction, Transaction.decodeJson t.encodeJson = some t) ∧
    (∀ k : TransactionKind,
      decodeFull TransactionKind.decodeBin k.encodeBin = some k) ∧
    (∀ k : TransactionKind, TransactionKind.decodeJson k.encodeJson = some k) ∧
    (∀ e : EndOfEpochTransactionKind,
      decodeFull EndOfEpochTransactionKind.decodeBin e.encodeBin = some e) ∧
    (∀ e : EndOfEpochTransactionKind,
      EndOfEpochTransactionKind.decodeJson e.encodeJson = some e) ∧
    (∀ c : Command, decodeFull Command.decodeBin c.encodeBin = some c) ∧
    (∀ c : Command, Command.decodeJson c.encodeJson = some c) ∧
    (∀ a : Argument, decodeFull Argument.decodeBin a.encodeBin = some a) ∧
    (∀ a : Argument, Argument.decodeJson a.encodeJson = some a) ∧
    (∀ i : InputArgument,
      decodeFull InputArgument.decodeBin i.encodeBin = some i) ∧
    (∀ i : InputArgument, InputArgument.decodeJson i.encodeJson = some i) ∧
    (∀ s : SignedTransaction,
      decodeFull SignedTransaction.decodeBin s.encodeBin = some s) ∧
    (∀ s : SignedTransaction,
      SignedTransaction.decodeJson s.encodeJson = some s) :=
  ⟨decodeFull_encode transaction_bin_roundtrip,
    transaction_json_roundtrip,
    decodeFull_encode transactionKind_bin_roundtrip,
    transactionKind_json_roundtrip,
    decodeFull_encode EndOfEpochtransactionKind_bin_roundtrip,
    EndOfEpochtransactionKind_json_roundtrip,
    decodeFull_encode command_bin_roundtrip,
    command_json_roundtrip,
    decodeFull_encode argument_bin_roundtrip,
    argument_json_roundtrip,
    decodeFull_encode inputArgument_bin_roundtrip,
    inputArgument_json_roundtrip,
    decodeFull_encode signedTransaction_bin_roundtrip,
    signedTransaction_json_roundtrip⟩

/-- C2: binary canonicality, for every entity type of the codec: any byte
sequence that decodes successfully in Binary mode re-encodes to exactly
the same bytes, so each logical value has exactly one accepted binary
encoding. -/
theorem C2_binary_canonical :
    (∀ b t, decodeFull Transaction.decodeBin b = some t → t.encodeBin = b) ∧
    (∀ b k, decodeFull TransactionKind.decodeBin b = some k →
      k.encodeBin = b) ∧
    (∀ b e, decodeFull EndOfEpochTransactionKind.decodeBin b = some e →
      e.encodeBin = b) ∧
    (∀ b c, decodeFull Command.decodeBin b = some c → c.encodeBin = b) ∧
    (∀ b a, decodeFull Argument.decodeBin b = some a → a.encodeBin = b) ∧
    (∀ b i, decodeFull InputArgument.decodeBin b = some i →
      i.encodeBin = b) ∧
    (∀ b s, decodeFull SignedTransaction.decodeBin b = some s →
      s.encodeBin = b) :=
  ⟨fun b t => decodeFull_canonical transaction_bin_canonical b t,
    fun b k => decodeFull_canonical transactionKind_bin_canonical b k,
    fun b e =>
      decodeFull_canonical EndOfEpochtransactionKind_bin_canonical b e,
    fun b c => decodeFull_canonical command_bin_canonical b c,
    fun b a => decodeFull_canonical argument_bin_canonical b a,
    fun b i => decodeFull_canonical inputArgument_bin_canonical b i,
    fun b s => decodeFull_canonical signedTransaction_bin_canonical b s⟩

/-- Witness for C2: the one-byte buffer holding 0 decodes in Binary mode
to Argument.GasCoin, and the theorem re-encodes it to the same byte. -/
theorem C2_binary_canonical_witness :
    Argument.encodeBin Argument.gasCoin = [0] :=
  C2_binary_canonical.2.2.2.2.1 [0] Argument.gasCoin rfl

/-- C3: the binary signing pre-image is the 4-element positional tuple
(scope, version, app, transaction) with the three single-byte context
values encoded as 0; decoding succeeds exactly when the three context
bytes are 0 and otherwise fails with an invalid-intent error naming the
offending tuple, returning no partial value. -/
theorem C3_intent_tuple :
    (∀ t : Transaction, intentEncodeBin t = 0 :: 0 :: 0 :: t.encodeBin) ∧
    (∀ (scope version app : Byte) (t : Transaction) (rest : List Byte),
      intentDecodeBin (scope :: version :: app :: (t.encodeBin ++ rest)) =
        if scope = 0 ∧ version = 0 ∧ app = 0 then .ok (t, rest)
        else .error (.invalidIntent scope version app)) :=
  ⟨fun _ => rfl, intentDecodeBin_tuple⟩

/-- C4: the binary signed-transaction envelope is wrapped in a sequence
container declared to have exactly length 1; decoding rejects lengths 0
and 2 with the malformed-envelope error, and length exactly 1 (the
encoder's output) succeeds. -/
theorem C4_envelope_length :
    (∀ st : SignedTransaction, st.encodeBinEnvelope =
      ulebEncode 1 ++
        (intentEncodeBin st.transaction ++
          seqEncode bytesEncode st.signatures)) ∧
    (∀ body : List Byte,
      SignedTransaction.decodeBinEnvelope (ulebEncode 0 ++ body) =
        .error .malformedEnvelope) ∧
    (∀ body : List Byte,
      SignedTransaction.decodeBinEnvelope (ulebEncode 2 ++ body) =
        .error .malformedEnvelope) ∧
    (∀ (st : SignedTransaction) (rest : List Byte),
      SignedTransaction.decodeBinEnvelope (st.encodeBinEnvelope ++ rest) =
        .ok (st, rest)) :=
  ⟨fun _ => rfl,
    fun body => decodeBinEnvelope_length_ne_one 0 (by decide) body,
    fun body => decodeBinEnvelope_length_ne_one 2 (by decide) body,
    decodeBinEnvelope_encodeBinEnvelope⟩

/-- C5: in Binary mode InputArgument maps through the 2-level intermediate
sum type CallArg/ObjectArg: Pure is top-level variant 0 with the raw byte
sequence, and ImmutableOrOwned, Shared, Receiving nest under top-level
variant 1 (Object) as a 3-way sum in that order; decoding applies the
inverse mapping, so every variant round-trips through this shape. -/
theorem C5_inputArgument_two_level :
    (∀ v, InputArgument.toCallArg (.pure v) = CallArg.pure v) ∧
    (∀ r, InputArgument.toCallArg (.immutableOrOwned r) =
      CallArg.object (.immutableOrOwned r)) ∧
    (∀ oid sv mu, InputArgument.toCallArg (.shared oid sv mu) =
      CallArg.object (.shared oid sv mu)) ∧
    (∀ r, InputArgument.toCallArg (.receiving r) =
      CallArg.object (.receiving r)) ∧
    (∀ v : List Byte, (InputArgument.pure v).encodeBin =
      ulebEncode 0 ++ bytesEncode v) ∧
    (∀ r, (InputArgument.immutableOrOwned r).encodeBin =
      ulebEncode 1 ++ (ulebEncode 0 ++ bytesEncode r)) ∧
    (∀ oid sv mu, (InputArgument.shared oid sv mu).encodeBin =
      ulebEncode 1 ++
        (ulebEncode 1 ++ bytesEncode oid ++ u64Encode sv ++ boolEncode mu)) ∧
    (∀ r, (InputArgument.receiving r).encodeBin =
      ulebEncode 1 ++ (ulebEncode 2 ++ bytesEncode r)) ∧
    (∀ c : CallArg, c.toInputArgument.toCallArg = c) ∧
    (∀ (a : InputArgument) (rest : List Byte),
      InputArgument.decodeBin (a.encodeBin ++ rest) = some (a, rest)) :=
  ⟨fun _ => rfl, fun _ => rfl, fun _ _ _ => rfl, fun _ => rfl,
    fun _ => rfl, fun _ => rfl, fun _ _ _ => rfl, fun _ => rfl,
    toCallArg_toInputArgument, inputArgument_bin_roundtrip⟩

/-- C6: in Binary mode the TransactionKind discriminant is the variant's
zero-based index in the fixed declaration order (ProgrammableTransaction
is 0, ConsensusCommitPrologueV2 is 7), followed by the variant's payload,
with unit variants (of the end-of-epoch sub-kind) contributing no further
bytes. -/
theorem C6_kind_discriminants :
    (∀ k, (TransactionKind.programmableTransaction k).encodeBin =
      ulebEncode 0 ++ bytesEncode k) ∧
    (∀ k, (TransactionKind.changeEpoch k).encodeBin =
      ulebEncode 1 ++ bytesEncode k) ∧
    (∀ k, (TransactionKind.genesis k).encodeBin =
      ulebEncode 2 ++ bytesEncode k) ∧
    (∀ k, (TransactionKind.consensusCommitPrologue k).encodeBin =
      ulebEncode 3 ++ bytesEncode k) ∧
    (∀ k, (TransactionKind.authenticatorStateUpdate k).encodeBin =
      ulebEncode 4 ++ bytesEncode k) ∧
    (∀ cmds, (TransactionKind.endOfEpoch cmds).encodeBin =
      ulebEncode 5 ++ seqEncode EndOfEpochTransactionKind.encodeBin cmds) ∧
    (∀ k, (TransactionKind.randomnessStateUpdate k).encodeBin =
      ulebEncode 6 ++ bytesEncode k) ∧
    (∀ k, (TransactionKind.consensusCommitPrologueV2 k).encodeBin =
      ulebEncode 7 ++ bytesEncode k) ∧
    (EndOfEpochTransactionKind.authenticatorStateCreate.encodeBin =
      ulebEncode 1) ∧
    (EndOfEpochTransactionKind.randomnessStateCreate.encodeBin =
      ulebEncode 3) ∧
    (EndOfEpochTransactionKind.denyListStateCreate.encodeBin =
      ulebEncode 4) :=
  ⟨fun _ => rfl, fun _ => rfl, fun _ => rfl, fun _ => rfl, fun _ => rfl,
    fun _ => rfl, fun _ => rfl, fun _ => rfl, rfl, rfl, rfl⟩

/-- C7: the 64-bit fields initial_shared_version and bridge_object_version
are decimal strings in Textual mode, decode back from decimal strings, and
remain native 8-byte little-endian integers in Binary mode. -/
theorem C7_u64_decimal_strings :
    (∀ oid sv mu, (InputArgument.shared oid sv mu).encodeJson =
      .obj [("type", .str "shared"), ("object_id", .bytes oid),
        ("initial_shared_version", .str (natToDecimal sv.val)),
        ("mutable", .bool mu)]) ∧
    (∀ v, (EndOfEpochTransactionKind.bridgeCommitteeInit v).encodeJson =
      .obj [("kind", .str "bridge_committee_init"),
        ("bridge_object_version", .str (natToDecimal v.val))]) ∧
    (∀ u : U64, (Json.str (natToDecimal u.val)).asU64Decimal = some u) ∧
    (∀ oid sv mu, InputArgument.decodeJson
      (InputArgument.shared oid sv mu).encodeJson =
        some (.shared oid sv mu)) ∧
    (∀ v, EndOfEpochTransactionKind.decodeJson
      (EndOfEpochTransactionKind.bridgeCommitteeInit v).encodeJson =
        some (.bridgeCommitteeInit v)) ∧
    (∀ oid sv mu, (InputArgument.shared oid sv mu).encodeBin =
      ulebEncode 1 ++ (ulebEncode 1 ++ bytesEncode oid ++
        leEncode 8 sv.val ++ boolEncode mu)) ∧
    (∀ v, (EndOfEpochTransactionKind.bridgeCommitteeInit v).encodeBin =
      ulebEncode 6 ++ leEncode 8 v.val) :=
  ⟨fun _ _ _ => rfl, fun _ => rfl, asU64Decimal_u64ToJson,
    fun oid sv mu => inputArgument_json_roundtrip (.shared oid sv mu),
    fun v => EndOfEpochtransactionKind_json_roundtrip
      (.bridgeCommitteeInit v),
    fun _ _ _ => rfl, fun _ => rfl⟩

/-- C8: in Textual mode a SignedTransaction is the transaction's named
fields merged into the same container together with a signatures field
holding the ordered signature list, with no domain-separation tuple and no
singleton-sequence framing; decoding accepts this merged shape. -/
theorem C8_signed_textual_merged :
    (∀ st : SignedTransaction, st.encodeJson =
      .obj (st.transaction.jsonFields ++
        [("signatures", .arr (st.signatures.map Json.bytes))])) ∧
    (∀ t : Transaction, t.jsonFields =
      ("version", .str "1") :: t.kind.jsonFields ++
        [("sender", .bytes t.sender), ("gas_payment", .bytes t.gasPayment),
          ("expiration", .bytes t.expiration)]) ∧
    (∀ st : SignedTransaction,
      SignedTransaction.decodeJson st.encodeJson = some st) :=
  ⟨fun _ => rfl, fun _ => rfl, signedTransaction_json_roundtrip⟩

/-- C9: the Textual encodings of the four Argument variants are exactly
the tagged shapes with unsigned 16-bit indices, and decoding inverts each
of them. -/
theorem C9_argument_textual :
    (Argument.gasCoin.encodeJson = .obj [("type", .str "gas_coin")]) ∧
    (∀ i : U16, (Argument.input i).encodeJson =
      .obj [("type", .str "input"), ("input", .num i.val)]) ∧
    (∀ r : U16, (Argument.result r).encodeJson =
      .obj [("type", .str "result"), ("result", .num r.val)]) ∧
    (∀ r s : U16, (Argument.nestedResult r s).encodeJson =
      .obj [("type", .str "nested_result"), ("result", .num r.val),
        ("subresult", .num s.val)]) ∧
    (∀ a : Argument, Argument.decodeJson a.encodeJson = some a) :=
  ⟨rfl, fun _ => rfl, fun _ => rfl, fun _ _ => rfl,
    argument_json_roundtrip⟩

end SuiCodec

namespace MoveVerifier

/-!
Translation of the ability-field-requirements pass
(src/sui/external-crates/move/crates/move-bytecode-verifier/src/ability_field_requirements.rs).
The move-binary-format crate it builds on is not under src/: ability sets
and their operations, the requires relation, and the per-field ability
computation module.abilities are modelled from the Move ability semantics
the pass assumes; the ability computation is kept abstract as a per-module
oracle, since the claim is conditional on it succeeding.  Signature tokens
are an arbitrary type parameter.
-/

/-- One of the four Move abilities. -/
inductive Ability : Type where
  | copy : Ability
  | drop : Ability
  | store : Ability
  | key : Ability
deriving DecidableEq

/-- A set of Move abilities (AbilitySet in move-binary-format). -/
structure AbilitySet : Type where
  copy : Bool
  drop : Bool
  store : Bool
  key : Bool
deriving DecidableEq

/-- The empty ability set (AbilitySet::EMPTY). -/
def AbilitySet.empty : AbilitySet := ⟨false, false, false, false⟩

/-- The full ability set (AbilitySet::ALL). -/
def AbilitySet.all : AbilitySet := ⟨true, true, true, true⟩

/-- Union of two ability sets (the | operator). -/
def AbilitySet.union (a b : AbilitySet) : AbilitySet :=
  ⟨a.copy || b.copy, a.drop || b.drop, a.store || b.store, a.key || b.key⟩

/-- Pointwise inclusion of ability sets (AbilitySet::is_subset). -/
def AbilitySet.isSubset (a b : AbilitySet) : Bool :=
  (!a.copy || b.copy) && (!a.drop || b.drop) &&
    (!a.store || b.store) && (!a.key || b.key)

/-- The abilities present in a set, in declaration order (into_iter). -/
def AbilitySet.toList (s : AbilitySet) : List Ability :=
  (if s.copy then [Ability.copy] else []) ++
    (if s.drop then [Ability.drop] else []) ++
    (if s.store then [Ability.store] else []) ++
    (if s.key then [Ability.key] else [])

/-- Modelled from the spec-level Move ability semantics
(Ability::requires in move-binary-format, which is not under src/): the
ability a field type must provide for its datatype to have the given
ability - copy requires copy, drop requires drop, store requires store,
and key requires store. -/
def Ability.requires : Ability → AbilitySet
  | .copy => ⟨true, false, false, false⟩
  | .drop => ⟨false, true, false, false⟩
  | .store => ⟨false, false, true, false⟩
  | .key => ⟨false, false, true, false⟩

/-- The abilities every field must provide, folded from the datatype's
declared abilities exactly as the pass does. -/
def requiredAbilities (s : AbilitySet) : AbilitySet :=
  (s.toList.map Ability.requires).foldl AbilitySet.union AbilitySet.empty

/-- The status codes this pass can produce (other oracle failures keep
their own codes). -/
inductive StatusCode : Type where
  | fieldMissingTypeAbility : StatusCode
  | otherStatus (n : Nat) : StatusCode
deriving DecidableEq

/-- The index kinds attached to verification errors by this pass. -/
inductive IndexKind : Type where
  | structDefinition : IndexKind
  | enumDefinition : IndexKind
  | variantTag : IndexKind
  | fieldDefinition : IndexKind
deriving DecidableEq

/-- A VM error: a status code plus the index trail attached by
verification_error and at_index (the module location attached by finish is
not modelled; it carries no per-claim content). -/
structure VMError : Type where
  code : StatusCode
  indices : List (IndexKind × Nat)
deriving DecidableEq

/-- Build a verification error carrying one index (verification_error). -/
def verificationError (code : StatusCode) (kind : IndexKind) (idx : Nat) :
    VMError :=
  ⟨code, [(kind, idx)]⟩

/-- Append a further index to an error (PartialVMError::at_index). -/
def VMError.atIndex (e : VMError) (kind : IndexKind) (idx : Nat) : VMError :=
  ⟨e.code, e.indices ++ [(kind, idx)]⟩

/-- A field definition: its signature token. -/
structure FieldDef (σ : Type) : Type where
  signature : σ

/-- Field information of a struct definition: native or declared fields. -/
inductive StructFieldInfo (σ : Type) : Type where
  | native : StructFieldInfo σ
  | declared (fields : List (FieldDef σ)) : StructFieldInfo σ

/-- A struct definition: its handle index and field information. -/
structure StructDef (σ : Type) : Type where
  structHandle : Nat
  fieldInfo : StructFieldInfo σ

/-- A variant of an enum definition: its fields. -/
structure VariantDef (σ : Type) : Type where
  fields : List (FieldDef σ)

/-- An enum definition: its handle index and variants. -/
structure EnumDef (σ : Type) : Type where
  enumHandle : Nat
  variants : List (VariantDef σ)

/-- A datatype handle: declared abilities and type parameters (only their
number matters to this pass). -/
structure DatatypeHandle : Type where
  abilities : AbilitySet
  typeParameters : List Unit

/-- A compiled module, restricted to what the pass reads: handles, struct
and enum definitions, and the per-field ability computation
(module.abilities from move-binary-format, not under src/, kept abstract
as an oracle from a signature token and type-parameter abilities to an
ability set or an error). -/
structure CompiledModule (σ : Type) : Type where
  datatypeHandles : List DatatypeHandle
  structDefs : List (StructDef σ)
  enumDefs : List (EnumDef σ)
  abilitiesFn : σ → List AbilitySet → Except VMError AbilitySet

/-- Look up a datatype handle (datatype_handle_at; handle indices are kept
in range by the bounds checker, which is outside this pass). -/
def CompiledModule.datatypeHandleAt (m : CompiledModule σ) (i : Nat) :
    DatatypeHandle :=
  m.datatypeHandles.getD i ⟨AbilitySet.empty, []⟩

/-- The abilities every field of this struct must provide. -/
def structRequired (m : CompiledModule σ) (sd : StructDef σ) : AbilitySet :=
  requiredAbilities (m.datatypeHandleAt sd.structHandle).abilities

/-- Type-parameter abilities for this struct: all parameters are assumed
to carry all abilities. -/
def structTyParams (m : CompiledModule σ) (sd : StructDef σ) :
    List AbilitySet :=
  (m.datatypeHandleAt sd.structHandle).typeParameters.map
    (fun _ => AbilitySet.all)

/-- The abilities every field of this enum must provide. -/
def enumRequired (m : CompiledModule σ) (ed : EnumDef σ) : AbilitySet :=
  requiredAbilities (m.datatypeHandleAt ed.enumHandle).abilities

/-- Type-parameter abilities for this enum: all parameters are assumed to
carry all abilities. -/
def enumTyParams (m : CompiledModule σ) (ed : EnumDef σ) : List AbilitySet :=
  (m.datatypeHandleAt ed.enumHandle).typeParameters.map
    (fun _ => AbilitySet.all)

/-- Check the declared fields of the struct at definition index idx. -/
def checkStructFields (m : CompiledModule σ) (idx : Nat)
    (required : AbilitySet) (tyArgs : List AbilitySet) :
    List (FieldDef σ) → Except VMError Unit
  | [] => .ok ()
  | f :: fs =>
    match m.abilitiesFn f.signature tyArgs with
    | .error e => .error e
    | .ok fieldAbilities =>
      if required.isSubset fieldAbilities then
        checkStructFields m idx required tyArgs fs
      else
        .error (verificationError .fieldMissingTypeAbility
          .structDefinition idx)

/-- Walk the struct definitions from definition index idx on, skipping
native structs. -/
def checkStructs (m : CompiledModule σ) :
    Nat → List (StructDef σ) → Except VMError Unit
  | _, [] => .ok ()
  | idx, sd :: rest =>
    match sd.fieldInfo with
    | .native => checkStructs m (idx + 1) rest
    | .declared fields =>
      match checkStructFields m idx (structRequired m sd)
          (structTyParams m sd) fields with
      | .error e => .error e
      | .ok _ => checkStructs m (idx + 1) rest

/-- Check the fields of the variant vIdx of the enum at definition index
idx, from field index fIdx on. -/
def checkVariantFields (m : CompiledModule σ) (idx vIdx : Nat)
    (required : AbilitySet) (tyArgs : List AbilitySet) :
    Nat → List (FieldDef σ) → Except VMError Unit
  | _, [] => .ok ()
  | fIdx, f :: fs =>
    match m.abilitiesFn f.signature tyArgs with
    | .error e => .error e
    | .ok fieldAbilities =>
      if required.isSubset fieldAbilities then
        checkVariantFields m idx vIdx required tyArgs (fIdx + 1) fs
      else
        .error (((verificationError .fieldMissingTypeAbility
          .enumDefinition idx).atIndex .variantTag vIdx).atIndex
            .fieldDefinition fIdx)

/-- Walk the variants of the enum at definition index idx. -/
def checkVariants (m : CompiledModule σ) (idx : Nat) (required : AbilitySet)
    (tyArgs : List AbilitySet) :
    Nat → List (VariantDef σ) → Except VMError Unit
  | _, [] => .ok ()
  | vIdx, v :: vs =>
    match checkVariantFields m idx vIdx required tyArgs 0 v.fields with
    | .error e => .error e
    | .ok _ => checkVariants m idx required tyArgs (vIdx + 1) vs

/-- Walk the enum definitions from definition index idx on. -/
def checkEnums (m : CompiledModule σ) :
    Nat → List (EnumDef σ) → Except VMError Unit
  | _, [] => .ok ()
  | idx, ed :: rest =>
    match checkVariants m idx (enumRequired m ed) (enumTyParams m ed) 0
        ed.variants with
    | .error e => .error e
    | .ok _ => checkEnums m (idx + 1) rest

/-- The pass body (verify_module_impl): all struct definitions first, then
all enum definitions. -/
def verify_module_impl (m : CompiledModule σ) : Except VMError Unit :=
  match checkStructs m 0 m.structDefs with
  | .error e => .error e
  | .ok _ => checkEnums m 0 m.enumDefs

/-- The pass entry point (verify_module; the location attached by finish
is not modelled). -/
def verify_module (m : CompiledModule σ) : Except VMError Unit :=
  verify_module_impl m

/-! ## The declarative reading of the pass -/

/-- A struct field satisfies the requirement: whenever the ability oracle
computes its abilities, they include everything the struct's declared
abilities require. -/
def structFieldOk (m : CompiledModule σ) (sd : StructDef σ)
    (f : FieldDef σ) : Prop :=
  ∀ fa, m.abilitiesFn f.signature (structTyParams m sd) = .ok fa →
    (structRequired m sd).isSubset fa = true

/-- Every declared field of the struct satisfies the requirement (native
structs impose nothing). -/
def structDefOk (m : CompiledModule σ) (sd : StructDef σ) : Prop :=
  ∀ fields, sd.fieldInfo = .declared fields → ∀ f ∈ fields, structFieldOk m sd f

/-- Some declared field of the struct demonstrably violates the
requirement. -/
def structDefViolated (m : CompiledModule σ) (sd : StructDef σ) : Prop :=
  ∃ fields, sd.fieldInfo = .declared fields ∧ ∃ f ∈ fields, ∃ fa,
    m.abilitiesFn f.signature (structTyParams m sd) = .ok fa ∧
    (structRequired m sd).isSubset fa = false

/-- An enum field satisfies the requirement. -/
def enumFieldOk (m : CompiledModule σ) (ed : EnumDef σ) (f : FieldDef σ) :
    Prop :=
  ∀ fa, m.abilitiesFn f.signature (enumTyParams m ed) = .ok fa →
    (enumRequired m ed).isSubset fa = true

/-- Every field of every variant of the enum satisfies the requirement. -/
def enumDefOk (m : CompiledModule σ) (ed : EnumDef σ) : Prop :=
  ∀ v ∈ ed.variants, ∀ f ∈ v.fields, enumFieldOk m ed f

/-- Some field of some variant of the enum demonstrably violates the
requirement. -/
def enumDefViolated (m : CompiledModule σ) (ed : EnumDef σ) : Prop :=
  ∃ v ∈ ed.variants, ∃ f ∈ v.fields, ∃ fa,
    m.abilitiesFn f.signature (enumTyParams m ed) = .ok fa ∧
    (enumRequired m ed).isSubset fa = false

/-- The per-field ability computation succeeds on every field the pass
visits. -/
def OracleOk (m : CompiledModule σ) : Prop :=
  (∀ sd ∈ m.structDefs, ∀ fields, sd.fieldInfo = .declared fields →
    ∀ f ∈ fields, ∃ fa,
      m.abilitiesFn f.signature (structTyParams m sd) = .ok fa) ∧
  (∀ ed ∈ m.enumDefs, ∀ v ∈ ed.variants, ∀ f ∈ v.fields, ∃ fa,
    m.abilitiesFn f.signature (enumTyParams m ed) = .ok fa)

/-- Every struct and every enum of the module satisfies the field ability
requirement. -/
def ModuleFieldsOk (m : CompiledModule σ) : Prop :=
  (∀ sd ∈ m.structDefs, structDefOk m sd) ∧ (∀ ed ∈ m.enumDefs, enumDefOk m ed)

theorem not_structDefViolated_iff (m : CompiledModule σ) (sd : StructDef σ) :
    ¬ structDefViolated m sd ↔ structDefOk m sd := by
  constructor
  · intro hnv fields hf f hmem fa hfa
    by_contra hne
    exact hnv ⟨fields, hf, f, hmem, fa, hfa, Bool.not_eq_true _ ▸ hne⟩
  · rintro hok ⟨fields, hf, f, hmem, fa, hfa, hfalse⟩
    have := hok fields hf f hmem fa hfa
    rw [this] at hfalse
    cases hfalse

theorem not_enumDefViolated_iff (m : CompiledModule σ) (ed : EnumDef σ) :
    ¬ enumDefViolated m ed ↔ enumDefOk m ed := by
  constructor
  · intro hnv v hv f hmem fa hfa
    by_contra hne
    exact hnv ⟨v, hv, f, hmem, fa, hfa, Bool.not_eq_true _ ▸ hne⟩
  · rintro hok ⟨v, hv, f, hmem, fa, hfa, hfalse⟩
    have := hok v hv f hmem fa hfa
    rw [this] at hfalse
    cases hfalse

theorem checkStructFields_ok_iff (m : CompiledModule σ) (idx : Nat)
    (req : AbilitySet) (ty : List AbilitySet) (fs : List (FieldDef σ))
    (horacle : ∀ f ∈ fs, ∃ fa, m.abilitiesFn f.signature ty = .ok fa) :
    checkStructFields m idx req ty fs = .ok () ↔
      ∀ f ∈ fs, ∀ fa, m.abilitiesFn f.signature ty = .ok fa →
        req.isSubset fa = true := by
  induction fs with
  | nil => simp [checkStructFields]
  | cons f fs ih =>
    obtain ⟨fa, hfa⟩ := horacle f (by simp)
    have ih2 := ih (fun g hg => horacle g (by simp [hg]))
    rw [checkStructFields, hfa]
    simp only []
    by_cases hs : req.isSubset fa = true
    · rw [if_pos hs, ih2]
      constructor
      · intro h g hg fb hfb
        rcases List.mem_cons.mp hg with rfl | hg2
        · rw [hfa] at hfb
          cases hfb
          exact hs
        · exact h g hg2 fb hfb
      · intro h g hg2 fb hfb
        exact h g (by simp [hg2]) fb hfb
    · rw [if_neg hs]
      exact iff_of_false (by simp) (fun h => hs (h f (by simp) fa hfa))

theorem checkStructFields_error (m : CompiledModule σ) (idx : Nat)
    (req : AbilitySet) (ty : List AbilitySet) (fs : List (FieldDef σ))
    (e : VMError) (h : checkStructFields m idx req ty fs = .error e)
    (horacle : ∀ f ∈ fs, ∃ fa, m.abilitiesFn f.signature ty = .ok fa) :
    e = verificationError .fieldMissingTypeAbility .structDefinition idx := by
  induction fs with
  | nil => simp [checkStructFields] at h
  | cons f fs ih =>
    obtain ⟨fa, hfa⟩ := horacle f (by simp)
    rw [checkStructFields, hfa] at h
    simp only [] at h
    by_cases hs : req.isSubset fa = true
    · rw [if_pos hs] at h
      exact ih h (fun g hg => horacle g (by simp [hg]))
    · rw [if_neg hs] at h
      exact (Except.error.inj h).symm

theorem structDefOk_of_native (m : CompiledModule σ) (sd : StructDef σ)
    (h : sd.fieldInfo = .native) : structDefOk m sd := by
  intro fields hf
  rw [h] at hf
  exact StructFieldInfo.noConfusion hf

theorem checkStructs_ok_iff (m : CompiledModule σ) (k : Nat)
    (sds : List (StructDef σ))
    (horacle : ∀ sd ∈ sds, ∀ fields, sd.fieldInfo = .declared fields →
      ∀ f ∈ fields, ∃ fa,
        m.abilitiesFn f.signature (structTyParams m sd) = .ok fa) :
    checkStructs m k sds = .ok () ↔ ∀ sd ∈ sds, structDefOk m sd := by
  induction sds generalizing k with
  | nil => simp [checkStructs]
  | cons sd rest ih =>
    have ih2 := ih (k + 1) (fun sd2 h2 => horacle sd2 (by simp [h2]))
    rw [checkStructs]
    rcases hfi : sd.fieldInfo with _ | fields
    · simp only []
      rw [ih2]
      simp [List.forall_mem_cons, structDefOk_of_native m sd hfi]
    · simp only []
      rcases hc : checkStructFields m k (structRequired m sd)
          (structTyParams m sd) fields with e0 | u
      · refine iff_of_false (by simp) (fun hr => ?_)
        have hp := (checkStructFields_ok_iff m k _ _ fields
          (horacle sd (by simp) fields hfi)).mpr
          (hr sd (by simp) fields hfi)
        rw [hc] at hp
        cases hp
      · simp only []
        rw [ih2, List.forall_mem_cons]
        have hsd : structDefOk m sd := by
          intro fields2 hf2 f hmem
          rw [hfi] at hf2
          injection hf2 with hh
          subst hh
          exact (checkStructFields_ok_iff m k _ _ fields
            (horacle sd (by simp) fields hfi)).mp (by rw [hc]) f hmem
        simp [hsd]

theorem checkStructs_error (m : CompiledModule σ) (k : Nat)
    (sds : List (StructDef σ)) (e : VMError)
    (h : checkStructs m k sds = .error e)
    (horacle : ∀ sd ∈ sds, ∀ fields, sd.fieldInfo = .declared fields →
      ∀ f ∈ fields, ∃ fa,
        m.abilitiesFn f.signature (structTyParams m sd) = .ok fa) :
    ∃ pre sd post, sds = pre ++ sd :: post ∧
      (∀ sd' ∈ pre, ¬ structDefViolated m sd') ∧ structDefViolated m sd ∧
      e = verificationError .fieldMissingTypeAbility .structDefinition
        (k + pre.length) := by
  induction sds generalizing k with
  | nil => simp [checkStructs] at h
  | cons sd rest ih =>
    rw [checkStructs] at h
    rcases hfi : sd.fieldInfo with _ | fields
    · rw [hfi] at h
      simp only [] at h
      obtain ⟨pre, sd1, post, heq, hpre, hvio, he⟩ :=
        ih (k + 1) h (fun sd2 h2 => horacle sd2 (by simp [h2]))
      refine ⟨sd :: pre, sd1, post, by rw [heq]; rfl, ?_, hvio, ?_⟩
      · intro sd' h'
        rcases List.mem_cons.mp h' with rfl | h2
        · rw [not_structDefViolated_iff]
          exact structDefOk_of_native m sd' hfi
        · exact hpre sd' h2
      · rw [he]
        exact congrArg _ (by simp [List.length_cons]; omega)
    · rw [hfi] at h
      simp only [] at h
      rcases hc : checkStructFields m k (structRequired m sd)
          (structTyParams m sd) fields with e0 | u
      all_goals rw [hc] at h
      all_goals simp only [] at h
      · have he0 : e0 = e := Except.error.inj h
        subst he0
        have herr := checkStructFields_error m k _ _ fields e0 hc
          (horacle sd (by simp) fields hfi)
        have hP : ¬ (∀ f ∈ fields, ∀ fa,
            m.abilitiesFn f.signature (structTyParams m sd) = .ok fa →
              (structRequired m sd).isSubset fa = true) := by
          intro hp
          have := (checkStructFields_ok_iff m k _ _ fields
            (horacle sd (by simp) fields hfi)).mpr hp
          rw [hc] at this
          cases this
        push_neg at hP
        obtain ⟨f, hf, fa, hfa, hval⟩ := hP
        replace hval := Bool.eq_false_iff.mpr hval
        exact ⟨[], sd, rest, rfl, by simp,
          ⟨fields, hfi, f, hf, fa, hfa, hval⟩, by simpa using herr⟩
      · obtain ⟨pre, sd1, post, heq, hpre, hvio, he⟩ :=
          ih (k + 1) h (fun sd2 h2 => horacle sd2 (by simp [h2]))
        have hsd : structDefOk m sd := by
          intro fields2 hf2 f hmem
          rw [hfi] at hf2
          injection hf2 with hh
          subst hh
          exact (checkStructFields_ok_iff m k _ _ fields
            (horacle sd (by simp) fields hfi)).mp (by rw [hc]) f hmem
        refine ⟨sd :: pre, sd1, post, by rw [heq]; rfl, ?_, hvio, ?_⟩
        · intro sd' h'
          rcases List.mem_cons.mp h' with rfl | h2
          · rw [not_structDefViolated_iff]
            exact hsd
          · exact hpre sd' h2
        · rw [he]
          exact congrArg _ (by simp [List.length_cons]; omega)

theorem checkVariantFields_ok_iff (m : CompiledModule σ) (idx vIdx : Nat)
    (req : AbilitySet) (ty : List AbilitySet) (fIdx : Nat)
    (fs : List (FieldDef σ))
    (horacle : ∀ f ∈ fs, ∃ fa, m.abilitiesFn f.signature ty = .ok fa) :
    checkVariantFields m idx vIdx req ty fIdx fs = .ok () ↔
      ∀ f ∈ fs, ∀ fa, m.abilitiesFn f.signature ty = .ok fa →
        req.isSubset fa = true := by
  induction fs generalizing fIdx with
  | nil => simp [checkVariantFields]
  | cons f fs ih =>
    obtain ⟨fa, hfa⟩ := horacle f (by simp)
    have ih2 := ih (fIdx + 1) (fun g hg => horacle g (by simp [hg]))
    rw [checkVariantFields, hfa]
    simp only []
    by_cases hs : req.isSubset fa = true
    · rw [if_pos hs, ih2]
      constructor
      · intro h g hg fb hfb
        rcases List.mem_cons.mp hg with rfl | hg2
        · rw [hfa] at hfb
          cases hfb
          exact hs
        · exact h g hg2 fb hfb
      · intro h g hg2 fb hfb
        exact h g (by simp [hg2]) fb hfb
    · rw [if_neg hs]
      exact iff_of_false (by simp) (fun h => hs (h f (by simp) fa hfa))

theorem checkVariantFields_error (m : CompiledModule σ) (idx vIdx : Nat)
    (req : AbilitySet) (ty : List AbilitySet) (fIdx : Nat)
    (fs : List (FieldDef σ)) (e : VMError)
    (h : checkVariantFields m idx vIdx req ty fIdx fs = .error e)
    (horacle : ∀ f ∈ fs, ∃ fa, m.abilitiesFn f.signature ty = .ok fa) :
    e.code = .fieldMissingTypeAbility ∧
      e.indices.head? = some (.enumDefinition, idx) := by
  induction fs generalizing fIdx with
  | nil => simp [checkVariantFields] at h
  | cons f fs ih =>
    obtain ⟨fa, hfa⟩ := horacle f (by simp)
    rw [checkVariantFields, hfa] at h
    simp only [] at h
    by_cases hs : req.isSubset fa = true
    · rw [if_pos hs] at h
      exact ih (fIdx + 1) h (fun g hg => horacle g (by simp [hg]))
    · rw [if_neg hs] at h
      have he := (Except.error.inj h).symm
      subst he
      exact ⟨rfl, rfl⟩

theorem checkVariants_ok_iff (m : CompiledModule σ) (idx : Nat)
    (req : AbilitySet) (ty : List AbilitySet) (vIdx : Nat)
    (vs : List (VariantDef σ))
    (horacle : ∀ v ∈ vs, ∀ f ∈ v.fields, ∃ fa,
      m.abilitiesFn f.signature ty = .ok fa) :
    checkVariants m idx req ty vIdx vs = .ok () ↔
      ∀ v ∈ vs, ∀ f ∈ v.fields, ∀ fa,
        m.abilitiesFn f.signature ty = .ok fa → req.isSubset fa = true := by
  induction vs generalizing vIdx with
  | nil => simp [checkVariants]
  | cons v vs ih =>
    have ih2 := ih (vIdx + 1) (fun w hw => horacle w (by simp [hw]))
    rw [checkVariants]
    rcases hc : checkVariantFields m idx vIdx req ty 0 v.fields with e0 | u
    · refine iff_of_false (by simp) (fun hr => ?_)
      have hp := (checkVariantFields_ok_iff m idx vIdx req ty 0 v.fields
        (horacle v (by simp))).mpr (hr v (by simp))
      rw [hc] at hp
      cases hp
    · simp only []
      rw [ih2, List.forall_mem_cons]
      have hv : ∀ f ∈ v.fields, ∀ fa, m.abilitiesFn f.signature ty = .ok fa →
          req.isSubset fa = true :=
        (checkVariantFields_ok_iff m idx vIdx req ty 0 v.fields
          (horacle v (by simp))).mp (by rw [hc])
      exact (and_iff_right_iff_imp.mpr (fun _ => hv)).symm

theorem checkVariants_error (m : CompiledModule σ) (idx : Nat)
    (req : AbilitySet) (ty : List AbilitySet) (vIdx : Nat)
    (vs : List (VariantDef σ)) (e : VMError)
    (h : checkVariants m idx req ty vIdx vs = .error e)
    (horacle : ∀ v ∈ vs, ∀ f ∈ v.fields, ∃ fa,
      m.abilitiesFn f.signature ty = .ok fa) :
    e.code = .fieldMissingTypeAbility ∧
      e.indices.head? = some (.enumDefinition, idx) := by
  induction vs generalizing vIdx with
  | nil => simp [checkVariants] at h
  | cons v vs ih =>
    rw [checkVariants] at h
    rcases hc : checkVariantFields m idx vIdx req ty 0 v.fields with e0 | u
    all_goals rw [hc] at h
    all_goals simp only [] at h
    · have he0 : e0 = e := Except.error.inj h
      subst he0
      exact checkVariantFields_error m idx vIdx req ty 0 v.fields e0 hc
        (horacle v (by simp))
    · exact ih (vIdx + 1) h (fun w hw => horacle w (by simp [hw]))

theorem checkEnums_ok_iff (m : CompiledModule σ) (k : Nat)
    (eds : List (EnumDef σ))
    (horacle : ∀ ed ∈ eds, ∀ v ∈ ed.variants, ∀ f ∈ v.fields, ∃ fa,
      m.abilitiesFn f.signature (enumTyParams m ed) = .ok fa) :
    checkEnums m k eds = .ok () ↔ ∀ ed ∈ eds, enumDefOk m ed := by
  induction eds generalizing k with
  | nil => simp [checkEnums]
  | cons ed rest ih =>
    have ih2 := ih (k + 1) (fun ed2 h2 => horacle ed2 (by simp [h2]))
    rw [checkEnums]
    rcases hc : checkVariants m k (enumRequired m ed) (enumTyParams m ed) 0
        ed.variants with e0 | u
    · refine iff_of_false (by simp) (fun hr => ?_)
      have hp := (checkVariants_ok_iff m k _ _ 0 ed.variants
        (horacle ed (by simp))).mpr (hr ed (by simp))
      rw [hc] at hp
      cases hp
    · simp only []
      rw [ih2, List.forall_mem_cons]
      have hed : enumDefOk m ed :=
        (checkVariants_ok_iff m k _ _ 0 ed.variants
          (horacle ed (by simp))).mp (by rw [hc])
      simp [hed]

theorem checkEnums_error (m : CompiledModule σ) (k : Nat)
    (eds : List (EnumDef σ)) (e : VMError)
    (h : checkEnums m k eds = .error e)
    (horacle : ∀ ed ∈ eds, ∀ v ∈ ed.variants, ∀ f ∈ v.fields, ∃ fa,
      m.abilitiesFn f.signature (enumTyParams m ed) = .ok fa) :
    ∃ pre ed post, eds = pre ++ ed :: post ∧
      (∀ ed' ∈ pre, ¬ enumDefViolated m ed') ∧ enumDefViolated m ed ∧
      e.code = .fieldMissingTypeAbility ∧
      e.indices.head? = some (.enumDefinition, k + pre.length) := by
  induction eds generalizing k with
  | nil => simp [checkEnums] at h
  | cons ed rest ih =>
    rw [checkEnums] at h
    rcases hc : checkVariants m k (enumRequired m ed) (enumTyParams m ed) 0
        ed.variants with e0 | u
    all_goals rw [hc] at h
    all_goals simp only [] at h
    · have he0 : e0 = e := Except.error.inj h
      subst he0
      obtain ⟨hcode, hhead⟩ := checkVariants_error m k _ _ 0 ed.variants e0 hc
        (horacle ed (by simp))
      have hP : ¬ (∀ v ∈ ed.variants, ∀ f ∈ v.fields, ∀ fa,
          m.abilitiesFn f.signature (enumTyParams m ed) = .ok fa →
            (enumRequired m ed).isSubset fa = true) := by
        intro hp
        have := (checkVariants_ok_iff m k _ _ 0 ed.variants
          (horacle ed (by simp))).mpr hp
        rw [hc] at this
        cases this
      push_neg at hP
      obtain ⟨v, hv, f, hf, fa, hfa, hval⟩ := hP
      replace hval := Bool.eq_false_iff.mpr hval
      exact ⟨[], ed, rest, rfl, by simp, ⟨v, hv, f, hf, fa, hfa, hval⟩,
        hcode, by simpa using hhead⟩
    · obtain ⟨pre, ed1, post, heq, hpre, hvio, hcode, hhead⟩ :=
        ih (k + 1) h (fun ed2 h2 => horacle ed2 (by simp [h2]))
      have hed : enumDefOk m ed :=
        (checkVariants_ok_iff m k _ _ 0 ed.variants
          (horacle ed (by simp))).mp (by rw [hc])
      refine ⟨ed :: pre, ed1, post, by rw [heq]; rfl, ?_, hvio, hcode, ?_⟩
      · intro ed' h'
        rcases List.mem_cons.mp h' with rfl | h2
        · rw [not_enumDefViolated_iff]
          exact hed
        · exact hpre ed' h2
      · have h3 : k + 1 + pre.length = k + (ed :: pre).length := by
          simp [List.length_cons]
          omega
        rw [hhead, h3]

/-- C10: the bundled bytecode-verifier pass verify_module (a pure function
of its input module in this model) returns Ok, assuming the per-field
ability computation succeeds, exactly when for every struct definition
with declared fields and every field of every enum variant the field's
ability set (type parameters all given all abilities) includes every
ability required by the datatype's declared abilities; native structs are
skipped, and the first violation yields a FIELD_MISSING_TYPE_ABILITY
verification error identifying the offending struct or enum definition
index. -/
theorem C10_verify_module_spec (m : CompiledModule σ) (h : OracleOk m) :
    (verify_module m = .ok () ↔ ModuleFieldsOk m) ∧
    (∀ e, verify_module m = .error e →
      e.code = .fieldMissingTypeAbility ∧
      ((∃ pre sd post, m.structDefs = pre ++ sd :: post ∧
          (∀ sd' ∈ pre, ¬ structDefViolated m sd') ∧
          structDefViolated m sd ∧
          e.indices.head? = some (.structDefinition, pre.length)) ∨
        ((∀ sd ∈ m.structDefs, ¬ structDefViolated m sd) ∧
          ∃ pre ed post, m.enumDefs = pre ++ ed :: post ∧
          (∀ ed' ∈ pre, ¬ enumDefViolated m ed') ∧
          enumDefViolated m ed ∧
          e.indices.head? = some (.enumDefinition, pre.length)))) := by
  obtain ⟨hs, he⟩ := h
  constructor
  · unfold verify_module verify_module_impl ModuleFieldsOk
    rcases hcs : checkStructs m 0 m.structDefs with e0 | u
    · refine iff_of_false (by simp) ?_
      rintro ⟨h1, _⟩
      have hok := (checkStructs_ok_iff m 0 m.structDefs hs).mpr h1
      rw [hcs] at hok
      cases hok
    · simp only []
      rw [checkEnums_ok_iff m 0 m.enumDefs he]
      have h1 : ∀ sd ∈ m.structDefs, structDefOk m sd :=
        (checkStructs_ok_iff m 0 m.structDefs hs).mp (by rw [hcs])
      exact (and_iff_right_iff_imp.mpr (fun _ => h1)).symm
  · intro e herr
    unfold verify_module verify_module_impl at herr
    rcases hcs : checkStructs m 0 m.structDefs with e0 | u
    all_goals rw [hcs] at herr
    all_goals simp only [] at herr
    · have he0 : e0 = e := Except.error.inj herr
      subst he0
      obtain ⟨pre, sd, post, heq, hpre, hvio, heeq⟩ :=
        checkStructs_error m 0 m.structDefs e0 hcs hs
      subst heeq
      exact ⟨rfl, .inl ⟨pre, sd, post, heq, hpre, hvio,
        by simp [verificationError]⟩⟩
    · obtain ⟨pre, ed, post, heq, hpre, hvio, hcode, hhead⟩ :=
        checkEnums_error m 0 m.enumDefs e herr he
      have h1 : ∀ sd ∈ m.structDefs, structDefOk m sd :=
        (checkStructs_ok_iff m 0 m.structDefs hs).mp (by rw [hcs])
      exact ⟨hcode, .inr ⟨fun sd hsd =>
        (not_structDefViolated_iff m sd).mpr (h1 sd hsd),
        pre, ed, post, heq, hpre, hvio, by simpa using hhead⟩⟩

/-- A small concrete module used to witness the main theorem: one struct
with one declared field, every ability computation succeeding with the
full ability set. -/
def sampleModule : CompiledModule Unit where
  datatypeHandles := [⟨AbilitySet.all, []⟩]
  structDefs := [⟨0, .declared [⟨()⟩]⟩]
  enumDefs := []
  abilitiesFn := fun _ _ => .ok AbilitySet.all

/-- Witness for C10: the oracle hypothesis holds of the sample module and
the theorem's equivalence applies to it. -/
theorem C10_verify_module_spec_witness :
    OracleOk sampleModule ∧
      (verify_module sampleModule = .ok () ↔ ModuleFieldsOk sampleModule) := by
  have hOr : OracleOk sampleModule := by
    constructor
    · intro sd hsd fields hf f hfmem
      exact ⟨AbilitySet.all, rfl⟩
    · intro ed hed
      simp [sampleModule] at hed
  exact ⟨hOr, (C10_verify_module_spec sampleModule hOr).1⟩

end MoveVerifier
